import Mathlib

set_option autoImplicit false
set_option maxHeartbeats 1000000

/-!
Shallow embedding of `plugins/modules/files/source_file.py`.

Python strings are modelled as `List Char`.  The helpers `pyStrip`, `pyLower`,
`splitOnChar`, `unquote` model `str.strip`, `str.lower`, `str.split(sep)` and
the quote-stripping prelude of `typed_value`.  `pyStrip`/`pyLower` cover the
ASCII range, which is all the reasoning here touches.

`typed_value` is embedded with explicit fuel (`typedValueF`); each recursive
call of the Python function is on a strictly shorter string, so fuel
`length + 1` always suffices (proved below), and `typedValue` is the fuel-free
wrapper.  Python exceptions (`AttributeError` from calling `.split` on a
non-string, `ValueError` from tuple unpacking, `TypeError` from ansible's
`boolean`) are modelled with `Except PyErr`.
-/

abbrev PyStr := List Char

/-- Whitespace characters removed by Python `str.strip()` (ASCII range). -/
def isPySpace (c : Char) : Bool :=
  c = ' ' || c = '\t' || c = '\n' || c = '\r' || c = '\x0b' || c = '\x0c'

/-- Python `s.strip()`. -/
def pyStrip (s : PyStr) : PyStr :=
  ((s.dropWhile isPySpace).reverse.dropWhile isPySpace).reverse

/-- Python `str.lower` on one character (ASCII range). -/
def pyCharLower (c : Char) : Char :=
  match c with
  | 'A' => 'a' | 'B' => 'b' | 'C' => 'c' | 'D' => 'd' | 'E' => 'e' | 'F' => 'f'
  | 'G' => 'g' | 'H' => 'h' | 'I' => 'i' | 'J' => 'j' | 'K' => 'k' | 'L' => 'l'
  | 'M' => 'm' | 'N' => 'n' | 'O' => 'o' | 'P' => 'p' | 'Q' => 'q' | 'R' => 'r'
  | 'S' => 's' | 'T' => 't' | 'U' => 'u' | 'V' => 'v' | 'W' => 'w' | 'X' => 'x'
  | 'Y' => 'y' | 'Z' => 'z'
  | c => c

/-- Python `s.lower()`. -/
def pyLower (s : PyStr) : PyStr := s.map pyCharLower

/-- Python `c in s` for a single character. -/
def containsChar (c : Char) : PyStr → Bool
  | [] => false
  | x :: xs => x = c || containsChar c xs

/-- Number of occurrences of a character in a string. -/
def countChar (c : Char) : PyStr → Nat
  | [] => 0
  | x :: xs => (if x = c then 1 else 0) + countChar c xs

/-- Python `s.split(sep)` for a one-character separator: always returns
`count(sep) + 1` pieces, pieces may be empty. -/
def splitOnChar (c : Char) : PyStr → List PyStr
  | [] => [[]]
  | x :: xs =>
    match splitOnChar c xs with
    | [] => [[]]
    | p :: ps => if x = c then [] :: p :: ps else (x :: p) :: ps

/-- Python `s[1:-1]`. -/
def dropFirstLast (s : PyStr) : PyStr := (s.drop 1).dropLast

/-- The quote test of `typed_value`: the value both starts and ends with a
single quote, or both starts and ends with a double quote. -/
def isQuotedB (s : PyStr) : Bool :=
  decide ((s.head? = some '\'' ∧ s.getLast? = some '\'') ∨
          (s.head? = some '"' ∧ s.getLast? = some '"'))

/-- The quote-stripping prelude of `typed_value`:
`value = value[1:-1].strip()` when surrounded by a matching quote pair. -/
def unquote (s : PyStr) : PyStr :=
  if isQuotedB s then pyStrip (dropFirstLast s) else s

/-- The tagged union of values `typed_value` can produce: Python `str`,
`bool`, `list`, `dict` (the dict as an insertion-ordered association list). -/
inductive Val : Type where
  | text : PyStr → Val
  | bool : Bool → Val
  | list : List Val → Val
  | dict : List (PyStr × Val) → Val

instance : Inhabited Val := ⟨Val.text []⟩

instance : Nonempty Val := ⟨Val.text []⟩

/-- Python exceptions the module can raise, plus the fuel marker of the
embedding (`outOfFuel` never occurs at sufficient fuel, proved below). -/
inductive PyErr : Type where
  | attributeError
  | valueError
  | typeError
  | outOfFuel
deriving DecidableEq

/-- String members of ansible's `BOOLEANS_TRUE`
(`ansible.module_utils.parsing.convert_bool`); the non-string members
(`1`, `1.0`, `True`) can never equal a Python string, so they are dropped. -/
def BOOLEANS_TRUE : List PyStr :=
  ["y".toList, "yes".toList, "on".toList, "1".toList, "true".toList, "t".toList]

/-- String members of ansible's `BOOLEANS_FALSE`. -/
def BOOLEANS_FALSE : List PyStr :=
  ["n".toList, "no".toList, "off".toList, "0".toList, "false".toList, "f".toList]

/-- String members of ansible's `BOOLEANS`. -/
def BOOLEANS : List PyStr := BOOLEANS_TRUE ++ BOOLEANS_FALSE

/-- Ansible's `boolean(value, strict=True)` restricted to string arguments:
normalize with `lower().strip()`, look up in the token sets, raise
`TypeError` otherwise. -/
def pyBooleanStr (s : PyStr) : Except PyErr Bool :=
  if pyStrip (pyLower s) ∈ BOOLEANS_TRUE then .ok true
  else if pyStrip (pyLower s) ∈ BOOLEANS_FALSE then .ok false
  else .error .typeError

/-- Python `x == c` for an element of a heterogeneous list and a
one-character string `c`: only a `str` can equal a `str`. -/
def isTextOf (c : Char) : Val → Bool
  | .text t => decide (t = [c])
  | _ => false

/-- The list comprehension `[typed_value(i.strip()) for i in value.split(sep)]`,
with the evaluator for the recursive call passed in; the first exception
propagates. -/
def mapPieces (tv : PyStr → Except PyErr Val) : List PyStr → Except PyErr (List Val)
  | [] => .ok []
  | p :: ps =>
    match tv (pyStrip p) with
    | .error e => .error e
    | .ok v =>
      match mapPieces tv ps with
      | .error e => .error e
      | .ok vs => .ok (v :: vs)

/-- Python `dict.update({k: v})` on an insertion-ordered association list:
an existing key keeps its position and gets the new value, a new key is
appended. -/
def dictUpdate (d : List (PyStr × Val)) (k : PyStr) (v : Val) : List (PyStr × Val) :=
  if d.any (fun p => p.1 = k) then
    d.map (fun p => if p.1 = k then (k, v) else p)
  else d ++ [(k, v)]

/-- The dict-building loop of `typed_value`:
`key_item, value_item = (i.strip() for i in item.split("="))` raises
`ValueError` unless the split has exactly two parts, and `.split` on a
non-string item raises `AttributeError`; then
`value.update({key_item: typed_value(value_item)})`. -/
def buildDict (tv : PyStr → Except PyErr Val) :
    List Val → List (PyStr × Val) → Except PyErr (List (PyStr × Val))
  | [], acc => .ok acc
  | item :: rest, acc =>
    match item with
    | .text t =>
      match splitOnChar '=' t with
      | [k, v] =>
        match tv (pyStrip v) with
        | .error e => .error e
        | .ok w => buildDict tv rest (dictUpdate acc (pyStrip k) w)
      | _ => .error .valueError
    | _ => .error .attributeError

/-- The body of `typed_value` after quote stripping, on working value `t`:
the comma test, then (sequentially in Python, but equivalent to this
branching) the `";" in value and "=" in value` test — which, when the comma
branch has replaced `value` by a list, is a list-membership test followed by
an `AttributeError` from `value.split(";")` — then the boolean test, with the
fall-through returning the string unchanged. -/
def typedBody (tv : PyStr → Except PyErr Val) (t : PyStr) : Except PyErr Val :=
  if containsChar ',' t then
    match mapPieces tv (splitOnChar ',' t) with
    | .error e => .error e
    | .ok items =>
      if (items.any (isTextOf ';') && items.any (isTextOf '=')) then
        .error .attributeError
      else .ok (.list items)
  else if containsChar ';' t && containsChar '=' t then
    match mapPieces tv (splitOnChar ';' t) with
    | .error e => .error e
    | .ok items =>
      match buildDict tv items [] with
      | .error e => .error e
      | .ok d => .ok (.dict d)
  else if pyLower t ∈ BOOLEANS then
    match pyBooleanStr t with
    | .error e => .error e
    | .ok b => .ok (.bool b)
  else .ok (.text t)

/-- Fuelled embedding of `typed_value`. -/
def typedValueF : Nat → PyStr → Except PyErr Val
  | 0, _ => .error .outOfFuel
  | f + 1, s => typedBody (typedValueF f) (unquote s)

/-- `typed_value(value)`: fuel `length + 1` always suffices because every
recursive call is on a strictly shorter string. -/
def typedValue (s : PyStr) : Except PyErr Val := typedValueF (s.length + 1) s

/-- The continuation of `typed_value` after its one quote-stripping step,
fuel-free. -/
def typedBodyClean (t : PyStr) : Except PyErr Val := typedBody (typedValueF t.length) t

/-! Embedding of `main`. -/

/-- First-character class of `key_pattern = "[a-zA-Z_][a-zA-Z0-9_-]*"`. -/
def isKeyStart (c : Char) : Bool :=
  (65 ≤ c.toNat && c.toNat ≤ 90) || (97 ≤ c.toNat && c.toNat ≤ 122) || c.toNat = 95

/-- Body-character class of `key_pattern` (letters, digits, underscore, hyphen). -/
def isKeyBody (c : Char) : Bool :=
  isKeyStart c || (48 ≤ c.toNat && c.toNat ≤ 57) || c.toNat = 45

/-- Full match of the key pattern `[a-zA-Z_][a-zA-Z0-9_-]*` against the whole
string (no newline tolerance). -/
def regexKeyCore (s : PyStr) : Bool :=
  match s with
  | [] => false
  | c :: cs => isKeyStart c && cs.all isKeyBody

/-- `regex_key.match(s)`: Python `re.match` of `^[a-zA-Z_][a-zA-Z0-9_-]*$`,
where `$` matches at the end of the string or just before a newline that is
the last character of the string — so "X\n" matches even though "X\nFOO"
does not. -/
def regexKeyMatch (s : PyStr) : Bool :=
  regexKeyCore s || (decide (s.getLast? = some '\n') && regexKeyCore s.dropLast)

/-- `regex_key_value.match(line)` for a line (modelled without its trailing
newline): the key group is the maximal leading run of key characters
(nonempty, starting with a start-class character) and must be followed
immediately by `=`; the value group is the rest of the line. -/
def matchKeyValue (line : PyStr) : Option (PyStr × PyStr) :=
  match line with
  | [] => none
  | c :: cs =>
    if isKeyStart c then
      match cs.dropWhile isKeyBody with
      | '=' :: v => some (c :: cs.takeWhile isKeyBody, v)
      | _ => none
    else none

/-- The module parameters together with the state of the outside world the
module reads: whether `path` is a regular file and, if so, its lines
(without trailing newlines). -/
structure Params : Type where
  pathIsFile : Bool
  fileLines : List PyStr
  pfx : PyStr
  lower : Bool
  checkMode : Bool

/-- The `result` dict: `{"changed": False}` plus the optional `"vars"` key. -/
structure ModuleResult : Type where
  changed : Bool
  vars : Option (List (PyStr × Val))

/-- Which `fail_json` call fired; the payload is the offending path-free
datum interpolated into the message. -/
inductive FailMsg : Type where
  | notAFile
  | invalidPfx : PyStr → FailMsg
  | invalidKey : PyStr → FailMsg

/-- How one invocation of the module ends: `module.exit_json(**result)`,
`module.fail_json(msg=..., **result)`, or an exception escaping `main`. -/
inductive Outcome : Type where
  | exit : ModuleResult → Outcome
  | fail : FailMsg → ModuleResult → Outcome
  | crash : PyErr → Outcome

/-- The per-line loop of `main`. -/
def mainLoop (p : Params) :
    List PyStr → List (PyStr × Val) → ModuleResult → Outcome
  | [], _, result => .exit result
  | line :: rest, vars, result =>
    match matchKeyValue line with
    | none => mainLoop p rest vars result
    | some (k0, v0) =>
      let key0 := pyStrip k0
      let value0 := pyStrip v0
      let key1 := if p.pfx ≠ [] then p.pfx ++ key0 else key0
      let key2 := if p.lower then pyLower key1 else key1
      if regexKeyMatch key2 then
        match typedValue value0 with
        | .error e => .crash e
        | .ok v =>
          let vars' := dictUpdate vars key2 v
          let result' := if p.checkMode then result else { result with vars := some vars' }
          mainLoop p rest vars' result'
      else .fail (.invalidKey key2) result

/-- `main()`: existence check, prefix validation, then the line loop. -/
def mainRun (p : Params) : Outcome :=
  let result : ModuleResult := { changed := false, vars := none }
  if !p.pathIsFile then .fail .notAFile result
  else if p.pfx ≠ [] && !regexKeyMatch p.pfx then .fail (.invalidPfx p.pfx) result
  else mainLoop p p.fileLines [] result

/-- Classifier for the invalid-key failure outcome. -/
def isInvalidKeyFail : Outcome → Bool
  | .fail (.invalidKey _) _ => true
  | _ => false

/-- Inserting every entry in order into an empty dict, as the mapping branch
of `typed_value` does. -/
def dictFromEntries (es : List (PyStr × Val)) : List (PyStr × Val) :=
  es.foldl (fun d e => dictUpdate d e.1 e.2) []

/-! Basic facts about the string helpers. -/

theorem containsChar_nil {c : Char} : containsChar c [] = false := rfl

theorem containsChar_cons {c x : Char} {xs : PyStr} :
    containsChar c (x :: xs) = (decide (x = c) || containsChar c xs) := rfl

theorem countChar_nil {c : Char} : countChar c [] = 0 := rfl

theorem countChar_cons {c x : Char} {xs : PyStr} :
    countChar c (x :: xs) = (if x = c then 1 else 0) + countChar c xs := rfl

theorem containsChar_cons_iff {c x : Char} {xs : PyStr} :
    containsChar c (x :: xs) = true ↔ x = c ∨ containsChar c xs = true := by
  rw [containsChar_cons]
  simp

theorem containsChar_iff_mem {c : Char} {s : PyStr} : containsChar c s = true ↔ c ∈ s := by
  induction s with
  | nil => simp [containsChar_nil]
  | cons x xs ih =>
    rw [containsChar_cons_iff, ih, List.mem_cons]
    constructor
    · rintro (rfl | h)
      · exact Or.inl rfl
      · exact Or.inr h
    · rintro (rfl | h)
      · exact Or.inl rfl
      · exact Or.inr h

theorem containsChar_eq_false_iff {c : Char} {s : PyStr} : containsChar c s = false ↔ c ∉ s := by
  rw [← containsChar_iff_mem]
  cases containsChar c s <;> simp

theorem containsChar_false_of_subset {c : Char} {s t : PyStr} (h : t ⊆ s)
    (hs : containsChar c s = false) : containsChar c t = false := by
  rw [containsChar_eq_false_iff] at hs ⊢
  exact fun hm => hs (h hm)

theorem reverse_sublist_of {l₁ l₂ : List Char} (h : List.Sublist l₁ l₂.reverse) :
    List.Sublist l₁.reverse l₂ := by
  have h2 := List.reverse_sublist.mpr h
  simpa using h2

theorem pyStrip_sublist (s : PyStr) : List.Sublist (pyStrip s) s := by
  have h1 : List.Sublist (s.dropWhile isPySpace) s := List.dropWhile_sublist _
  have h2 : List.Sublist ((s.dropWhile isPySpace).reverse.dropWhile isPySpace)
      (s.dropWhile isPySpace).reverse := List.dropWhile_sublist _
  exact (reverse_sublist_of h2).trans h1

theorem pyStrip_length_le (s : PyStr) : (pyStrip s).length ≤ s.length :=
  (pyStrip_sublist s).length_le

theorem dropFirstLast_sublist (s : PyStr) : List.Sublist (dropFirstLast s) s :=
  (List.dropLast_sublist _).trans (List.drop_sublist _ _)

theorem unquote_sublist (s : PyStr) : List.Sublist (unquote s) s := by
  unfold unquote
  split
  · exact (pyStrip_sublist _).trans (dropFirstLast_sublist s)
  · exact List.Sublist.refl s

theorem unquote_length_le (s : PyStr) : (unquote s).length ≤ s.length :=
  (unquote_sublist s).length_le

theorem splitOnChar_ne_nil (c : Char) (s : PyStr) : splitOnChar c s ≠ [] := by
  cases s with
  | nil => simp [splitOnChar]
  | cons x xs =>
    unfold splitOnChar
    cases h : splitOnChar c xs with
    | nil => simp
    | cons p ps =>
      by_cases hx : x = c <;> simp [hx]

theorem splitOnChar_cons_eq {c x : Char} {xs q : PyStr} {qs : List PyStr}
    (hs : splitOnChar c xs = q :: qs) :
    splitOnChar c (x :: xs) = if x = c then [] :: q :: qs else (x :: q) :: qs := by
  unfold splitOnChar
  rw [hs]

theorem splitOnChar_mem_sublist {c : Char} {s p : PyStr} (h : p ∈ splitOnChar c s) :
    List.Sublist p s := by
  induction s generalizing p with
  | nil =>
    simp [splitOnChar] at h
    simp [h]
  | cons x xs ih =>
    cases hs : splitOnChar c xs with
    | nil => exact absurd hs (splitOnChar_ne_nil c xs)
    | cons q qs =>
      rw [splitOnChar_cons_eq hs] at h
      by_cases hx : x = c
      · rw [if_pos hx] at h
        rcases List.mem_cons.mp h with rfl | h2
        · exact List.nil_sublist _
        · exact (ih (by rw [hs]; exact h2)).cons x
      · rw [if_neg hx] at h
        rcases List.mem_cons.mp h with rfl | h2
        · exact (ih (by rw [hs]; exact List.mem_cons_self q qs)).cons₂ x
        · exact (ih (by rw [hs]; exact List.mem_cons_of_mem q h2)).cons x

theorem splitOnChar_length_lt {c : Char} {s p : PyStr} (hc : containsChar c s = true)
    (h : p ∈ splitOnChar c s) : p.length < s.length := by
  induction s generalizing p with
  | nil => simp [containsChar_nil] at hc
  | cons x xs ih =>
    cases hs : splitOnChar c xs with
    | nil => exact absurd hs (splitOnChar_ne_nil c xs)
    | cons q qs =>
      rw [splitOnChar_cons_eq hs] at h
      by_cases hx : x = c
      · rw [if_pos hx] at h
        rcases List.mem_cons.mp h with rfl | h2
        · simp
        · have hsub : List.Sublist p xs := splitOnChar_mem_sublist (by rw [hs]; exact h2)
          have hle := hsub.length_le
          simp only [List.length_cons]
          omega
      · have hcx : containsChar c xs = true := by
          rcases containsChar_cons_iff.mp hc with h1 | h1
          · exact absurd h1 hx
          · exact h1
        rw [if_neg hx] at h
        rcases List.mem_cons.mp h with rfl | h2
        · have hlt := ih hcx (by rw [hs]; exact List.mem_cons_self q qs)
          simp only [List.length_cons]
          omega
        · have hlt := ih hcx (by rw [hs]; exact List.mem_cons_of_mem q h2)
          simp only [List.length_cons]
          omega

theorem splitOnChar_count (c : Char) (s : PyStr) :
    (splitOnChar c s).length = countChar c s + 1 := by
  induction s with
  | nil => simp [splitOnChar, countChar_nil]
  | cons x xs ih =>
    cases hs : splitOnChar c xs with
    | nil => exact absurd hs (splitOnChar_ne_nil c xs)
    | cons q qs =>
      rw [hs] at ih
      rw [splitOnChar_cons_eq hs, countChar_cons]
      by_cases hx : x = c
      · rw [if_pos hx, if_pos hx]
        simp only [List.length_cons] at ih ⊢
        omega
      · rw [if_neg hx, if_neg hx]
        simp only [List.length_cons] at ih ⊢
        omega

theorem splitOnChar_not_contains {c : Char} {s p : PyStr} (h : p ∈ splitOnChar c s) :
    containsChar c p = false := by
  induction s generalizing p with
  | nil =>
    simp [splitOnChar] at h
    simp [h, containsChar_nil]
  | cons x xs ih =>
    cases hs : splitOnChar c xs with
    | nil => exact absurd hs (splitOnChar_ne_nil c xs)
    | cons q qs =>
      rw [splitOnChar_cons_eq hs] at h
      by_cases hx : x = c
      · rw [if_pos hx] at h
        rcases List.mem_cons.mp h with rfl | h2
        · simp [containsChar_nil]
        · exact ih (by rw [hs]; exact h2)
      · rw [if_neg hx] at h
        rcases List.mem_cons.mp h with rfl | h2
        · have hq := ih (by rw [hs]; exact List.mem_cons_self q qs)
          rw [containsChar_cons, hq]
          simp [hx]
        · exact ih (by rw [hs]; exact List.mem_cons_of_mem q h2)

theorem countChar_append (c : Char) (s t : PyStr) :
    countChar c (s ++ t) = countChar c s + countChar c t := by
  induction s with
  | nil => simp [countChar_nil]
  | cons x xs ih =>
    simp only [List.cons_append]
    rw [countChar_cons, countChar_cons, ih]
    omega

theorem countChar_reverse (c : Char) (s : PyStr) : countChar c s.reverse = countChar c s := by
  induction s with
  | nil => rfl
  | cons x xs ih =>
    rw [List.reverse_cons, countChar_append, ih, countChar_cons, countChar_cons, countChar_nil]
    omega

theorem countChar_dropWhile_pySpace {c : Char} (hc : isPySpace c = false) (s : PyStr) :
    countChar c (s.dropWhile isPySpace) = countChar c s := by
  induction s with
  | nil => rfl
  | cons x xs ih =>
    rw [List.dropWhile_cons]
    by_cases hx : isPySpace x = true
    · have hxc : x ≠ c := by
        intro hh
        rw [hh, hc] at hx
        exact absurd hx (by simp)
      rw [if_pos hx, ih, countChar_cons]
      simp [hxc]
    · simp [hx]

theorem countChar_pyStrip {c : Char} (hc : isPySpace c = false) (s : PyStr) :
    countChar c (pyStrip s) = countChar c s := by
  unfold pyStrip
  rw [countChar_reverse, countChar_dropWhile_pySpace hc, countChar_reverse,
    countChar_dropWhile_pySpace hc]

theorem countChar_dropLast {c : Char} {s : PyStr} (h : s ≠ []) (hl : s.getLast h ≠ c) :
    countChar c s.dropLast = countChar c s := by
  conv_rhs => rw [← List.dropLast_append_getLast h]
  rw [countChar_append, countChar_cons, countChar_nil]
  simp [hl]

theorem countChar_dropFirstLast {c q : Char} {s : PyStr} (hq : q ≠ c)
    (hh : s.head? = some q) (hl : s.getLast? = some q) :
    countChar c (dropFirstLast s) = countChar c s := by
  cases s with
  | nil => simp at hh
  | cons x xs =>
    have hx : x = q := by simpa using hh
    unfold dropFirstLast
    simp only [List.drop_succ_cons, List.drop_zero]
    cases xs with
    | nil =>
      rw [List.dropLast_nil, countChar_nil, countChar_cons, countChar_nil]
      simp [hx, hq]
    | cons y ys =>
      have hne : y :: ys ≠ [] := by simp
      rw [hx] at hl
      rw [List.getLast?_cons_cons, List.getLast?_eq_getLast (y :: ys) hne] at hl
      have hlast : (y :: ys).getLast hne = q := Option.some.inj hl
      rw [hx]
      rw [countChar_dropLast hne (by rw [hlast]; exact hq)]
      conv_rhs => rw [countChar_cons]
      simp [hq]

theorem countChar_unquote {c : Char} (hsp : isPySpace c = false)
    (h1 : c ≠ '\'') (h2 : c ≠ '"') (s : PyStr) :
    countChar c (unquote s) = countChar c s := by
  unfold unquote
  split
  case isTrue h =>
    unfold isQuotedB at h
    rw [decide_eq_true_iff] at h
    rw [countChar_pyStrip hsp]
    rcases h with ⟨hh, hl⟩ | ⟨hh, hl⟩
    · exact countChar_dropFirstLast (Ne.symm h1) hh hl
    · exact countChar_dropFirstLast (Ne.symm h2) hh hl
  case isFalse h => rfl

theorem containsChar_iff_countChar {c : Char} {s : PyStr} :
    containsChar c s = true ↔ countChar c s ≠ 0 := by
  induction s with
  | nil => simp [containsChar_nil, countChar_nil]
  | cons x xs ih =>
    rw [containsChar_cons_iff, countChar_cons, ih]
    by_cases hx : x = c <;> simp [hx]

theorem containsChar_unquote {c : Char} (hsp : isPySpace c = false)
    (h1 : c ≠ '\'') (h2 : c ≠ '"') (s : PyStr) :
    containsChar c (unquote s) = containsChar c s := by
  have hcount := countChar_unquote hsp h1 h2 s
  cases hu : containsChar c (unquote s) <;> cases hv : containsChar c s
  · rfl
  · rw [containsChar_iff_countChar] at hv
    rw [← Bool.not_eq_true, containsChar_iff_countChar] at hu
    simp only [ne_eq, not_not] at hu
    omega
  · rw [containsChar_iff_countChar] at hu
    rw [← Bool.not_eq_true, containsChar_iff_countChar] at hv
    simp only [ne_eq, not_not] at hv
    omega
  · rfl

/-! Facts about `mapPieces`, `buildDict` and the fuel discipline. -/

theorem forall₂_mem_right {α β : Type} {R : α → β → Prop} {l₁ : List α} {l₂ : List β}
    (h : List.Forall₂ R l₁ l₂) : ∀ b ∈ l₂, ∃ a ∈ l₁, R a b := by
  induction h with
  | nil => intro b hb; cases hb
  | @cons a b l₁ l₂ h1 h2 ih =>
    intro b' hb'
    rcases List.mem_cons.mp hb' with rfl | hb2
    · exact ⟨a, List.mem_cons_self a l₁, h1⟩
    · obtain ⟨a', ha', hr⟩ := ih b' hb2
      exact ⟨a', List.mem_cons_of_mem a ha', hr⟩

theorem mapPieces_congr {tv tv' : PyStr → Except PyErr Val} :
    ∀ {ps : List PyStr}, (∀ p ∈ ps, tv' (pyStrip p) = tv (pyStrip p)) →
      mapPieces tv' ps = mapPieces tv ps := by
  intro ps
  induction ps with
  | nil => intro h; rfl
  | cons p ps ih =>
    intro h
    simp only [mapPieces]
    rw [h p (List.mem_cons_self p ps), ih (fun q hq => h q (List.mem_cons_of_mem p hq))]

theorem mapPieces_eq_ok {tv : PyStr → Except PyErr Val} {ps : List PyStr} {items : List Val}
    (h : List.Forall₂ (fun p v => tv (pyStrip p) = .ok v) ps items) :
    mapPieces tv ps = .ok items := by
  induction h with
  | nil => rfl
  | @cons p v ps items h1 h2 ih =>
    simp only [mapPieces]
    rw [h1, ih]

theorem mapPieces_ok_forall₂ {tv : PyStr → Except PyErr Val} :
    ∀ {ps : List PyStr} {items : List Val}, mapPieces tv ps = .ok items →
      List.Forall₂ (fun p v => tv (pyStrip p) = .ok v) ps items := by
  intro ps
  induction ps with
  | nil =>
    intro items h
    simp only [mapPieces, Except.ok.injEq] at h
    rw [← h]
    exact List.Forall₂.nil
  | cons p ps ih =>
    intro items h
    simp only [mapPieces] at h
    cases htv : tv (pyStrip p) with
    | error e => rw [htv] at h; simp at h
    | ok v =>
      rw [htv] at h
      cases hmp : mapPieces tv ps with
      | error e => rw [hmp] at h; simp at h
      | ok vs =>
        rw [hmp] at h
        simp only [Except.ok.injEq] at h
        rw [← h]
        exact List.Forall₂.cons htv (ih hmp)

theorem mapPieces_not_fuel {tv : PyStr → Except PyErr Val} :
    ∀ {ps : List PyStr}, (∀ p ∈ ps, tv (pyStrip p) ≠ .error .outOfFuel) →
      mapPieces tv ps ≠ .error .outOfFuel := by
  intro ps
  induction ps with
  | nil => intro h; simp [mapPieces]
  | cons p ps ih =>
    intro h
    simp only [mapPieces]
    cases htv : tv (pyStrip p) with
    | error e =>
      have hne := h p (List.mem_cons_self p ps)
      rw [htv] at hne
      intro hcon
      cases hcon
      exact hne rfl
    | ok v =>
      cases hmp : mapPieces tv ps with
      | error e =>
        have hih := ih (fun q hq => h q (List.mem_cons_of_mem p hq))
        rw [hmp] at hih
        exact hih
      | ok vs => simp

/-- An item the dict-building loop raises on: a non-string (`.split` raises
`AttributeError`) or a string without exactly one `=` (tuple unpacking raises
`ValueError`). -/
def badItem : Val → Prop
  | .text t => (splitOnChar '=' t).length ≠ 2
  | _ => True

theorem buildDict_congr {tv tv' : PyStr → Except PyErr Val} :
    ∀ {items : List Val},
    (∀ t k v, Val.text t ∈ items → splitOnChar '=' t = [k, v] →
      tv' (pyStrip v) = tv (pyStrip v)) →
    ∀ acc, buildDict tv' items acc = buildDict tv items acc := by
  intro items
  induction items with
  | nil => intro h acc; rfl
  | cons item rest ih =>
    intro h acc
    cases item with
    | text t =>
      simp only [buildDict]
      rcases hsp : splitOnChar '=' t with _ | ⟨k, _ | ⟨v, _ | _⟩⟩
      · rfl
      · rfl
      · show (match tv' (pyStrip v) with
            | Except.error e => (Except.error e : Except PyErr (List (PyStr × Val)))
            | Except.ok w => buildDict tv' rest (dictUpdate acc (pyStrip k) w)) =
          (match tv (pyStrip v) with
            | Except.error e => Except.error e
            | Except.ok w => buildDict tv rest (dictUpdate acc (pyStrip k) w))
        rw [h t k v (List.mem_cons_self _ _) hsp]
        cases htv : tv (pyStrip v) with
        | error e => rfl
        | ok w =>
          exact ih (fun t' k' v' hm hs => h t' k' v' (List.mem_cons_of_mem _ hm) hs) _
      · rfl
    | bool b => rfl
    | list l => rfl
    | dict d => rfl

theorem buildDict_eq_ok {tv : PyStr → Except PyErr Val} {items : List Val}
    {entries : List (PyStr × Val)}
    (h : List.Forall₂ (fun item e => ∃ t k v, item = Val.text t ∧
      splitOnChar '=' t = [k, v] ∧ e.1 = pyStrip k ∧ tv (pyStrip v) = .ok e.2)
      items entries) :
    ∀ acc, buildDict tv items acc =
      .ok (entries.foldl (fun d e => dictUpdate d e.1 e.2) acc) := by
  induction h with
  | nil => intro acc; rfl
  | @cons item e items' entries' h1 h2 ih =>
    intro acc
    obtain ⟨t, k, v, rfl, hsp, hk, hv⟩ := h1
    simp only [buildDict, hsp, hv]
    rw [← hk, List.foldl_cons]
    exact ih _

theorem buildDict_not_fuel {tv : PyStr → Except PyErr Val} :
    ∀ {items : List Val},
    (∀ t k v, Val.text t ∈ items → splitOnChar '=' t = [k, v] →
      tv (pyStrip v) ≠ .error .outOfFuel) →
    ∀ acc, buildDict tv items acc ≠ .error .outOfFuel := by
  intro items
  induction items with
  | nil => intro h acc; simp [buildDict]
  | cons item rest ih =>
    intro h acc
    cases item with
    | text t =>
      simp only [buildDict]
      rcases hsp : splitOnChar '=' t with _ | ⟨k, _ | ⟨v, _ | _⟩⟩
      · simp
      · simp
      · show (match tv (pyStrip v) with
            | Except.error e => (Except.error e : Except PyErr (List (PyStr × Val)))
            | Except.ok w => buildDict tv rest (dictUpdate acc (pyStrip k) w)) ≠
          Except.error PyErr.outOfFuel
        cases htv : tv (pyStrip v) with
        | error e =>
          have hne := h t k v (List.mem_cons_self _ _) hsp
          rw [htv] at hne
          have he : e ≠ PyErr.outOfFuel := by
            intro hh
            rw [hh] at hne
            exact hne rfl
          show (Except.error e : Except PyErr (List (PyStr × Val))) ≠
            Except.error PyErr.outOfFuel
          intro hcon
          injection hcon with hh
          exact he hh
        | ok w =>
          exact ih (fun t' k' v' hm hs => h t' k' v' (List.mem_cons_of_mem _ hm) hs) _
      · simp
    | bool b => simp [buildDict]
    | list l => simp [buildDict]
    | dict d => simp [buildDict]

theorem buildDict_err {tv : PyStr → Except PyErr Val} :
    ∀ {items : List Val},
    (∀ t k v, Val.text t ∈ items → splitOnChar '=' t = [k, v] →
      ∃ w, tv (pyStrip v) = .ok w) →
    (∃ it ∈ items, badItem it) →
    ∀ acc, buildDict tv items acc = .error .valueError ∨
           buildDict tv items acc = .error .attributeError := by
  intro items
  induction items with
  | nil =>
    intro h1 h2 acc
    obtain ⟨it, hit, _⟩ := h2
    cases hit
  | cons item rest ih =>
    intro h1 h2 acc
    cases item with
    | text t =>
      simp only [buildDict]
      rcases hsp : splitOnChar '=' t with _ | ⟨k, _ | ⟨v, _ | _⟩⟩
      · left; rfl
      · left; rfl
      · obtain ⟨w, hw⟩ := h1 t k v (List.mem_cons_self _ _) hsp
        simp only [hw]
        have hbad : ∃ it ∈ rest, badItem it := by
          obtain ⟨it, hit, hb⟩ := h2
          rcases List.mem_cons.mp hit with rfl | h3
          · exfalso
            simp only [badItem] at hb
            rw [hsp] at hb
            simp at hb
          · exact ⟨it, h3, hb⟩
        exact ih (fun t' k' v' hm hs => h1 t' k' v' (List.mem_cons_of_mem _ hm) hs) hbad _
      · left; rfl
    | bool b => right; rfl
    | list l => right; rfl
    | dict d => right; rfl

/-! Branch equations for `typedBody` and the fuel discipline of `typedValueF`. -/

theorem typedBody_comma {tv : PyStr → Except PyErr Val} {t : PyStr}
    (hc : containsChar ',' t = true) :
    typedBody tv t =
      match mapPieces tv (splitOnChar ',' t) with
      | .error e => .error e
      | .ok items =>
        if (items.any (isTextOf ';') && items.any (isTextOf '=')) then
          .error .attributeError
        else .ok (.list items) := by
  unfold typedBody
  rw [hc]
  simp

theorem typedBody_semi {tv : PyStr → Except PyErr Val} {t : PyStr}
    (hc : containsChar ',' t = false)
    (hse : (containsChar ';' t && containsChar '=' t) = true) :
    typedBody tv t =
      match mapPieces tv (splitOnChar ';' t) with
      | .error e => .error e
      | .ok items =>
        match buildDict tv items [] with
        | .error e => .error e
        | .ok d => .ok (.dict d) := by
  unfold typedBody
  rw [hc, hse]
  simp

theorem typedBody_other {tv : PyStr → Except PyErr Val} {t : PyStr}
    (hc : containsChar ',' t = false)
    (hse : (containsChar ';' t && containsChar '=' t) = false) :
    typedBody tv t =
      if pyLower t ∈ BOOLEANS then
        match pyBooleanStr t with
        | .error e => .error e
        | .ok b => .ok (.bool b)
      else .ok (.text t) := by
  unfold typedBody
  rw [hc, hse]
  simp

theorem bool_and_parts {a b : Bool} (h : (a && b) = true) : a = true ∧ b = true := by
  simp at h
  exact h

theorem typedBody_comma_err {tv : PyStr → Except PyErr Val} {t : PyStr} {e : PyErr}
    (hc : containsChar ',' t = true)
    (hmp : mapPieces tv (splitOnChar ',' t) = .error e) :
    typedBody tv t = .error e := by
  rw [typedBody_comma hc, hmp]

theorem typedBody_comma_ok {tv : PyStr → Except PyErr Val} {t : PyStr} {items : List Val}
    (hc : containsChar ',' t = true)
    (hmp : mapPieces tv (splitOnChar ',' t) = .ok items) :
    typedBody tv t =
      if (items.any (isTextOf ';') && items.any (isTextOf '=')) then
        .error .attributeError
      else .ok (.list items) := by
  rw [typedBody_comma hc, hmp]

theorem typedBody_semi_err {tv : PyStr → Except PyErr Val} {t : PyStr} {e : PyErr}
    (hc : containsChar ',' t = false)
    (hse : (containsChar ';' t && containsChar '=' t) = true)
    (hmp : mapPieces tv (splitOnChar ';' t) = .error e) :
    typedBody tv t = .error e := by
  rw [typedBody_semi hc hse, hmp]

theorem typedBody_semi_ok {tv : PyStr → Except PyErr Val} {t : PyStr} {items : List Val}
    (hc : containsChar ',' t = false)
    (hse : (containsChar ';' t && containsChar '=' t) = true)
    (hmp : mapPieces tv (splitOnChar ';' t) = .ok items) :
    typedBody tv t =
      match buildDict tv items [] with
      | .error e => .error e
      | .ok d => .ok (.dict d) := by
  rw [typedBody_semi hc hse, hmp]

theorem typedBody_eq_text {tv : PyStr → Except PyErr Val} {t u : PyStr}
    (h : typedBody tv t = .ok (.text u)) : u = t := by
  by_cases hc : containsChar ',' t = true
  · exfalso
    cases hmp : mapPieces tv (splitOnChar ',' t) with
    | error e =>
      rw [typedBody_comma_err hc hmp] at h
      simp at h
    | ok items =>
      rw [typedBody_comma_ok hc hmp] at h
      by_cases ha : (items.any (isTextOf ';') && items.any (isTextOf '=')) = true <;>
        simp [ha] at h
  · rw [Bool.not_eq_true] at hc
    by_cases hse : (containsChar ';' t && containsChar '=' t) = true
    · exfalso
      cases hmp : mapPieces tv (splitOnChar ';' t) with
      | error e =>
        rw [typedBody_semi_err hc hse hmp] at h
        simp at h
      | ok items =>
        rw [typedBody_semi_ok hc hse hmp] at h
        cases hbd : buildDict tv items [] with
        | error e => rw [hbd] at h; simp at h
        | ok d => rw [hbd] at h; simp at h
    · rw [Bool.not_eq_true] at hse
      rw [typedBody_other hc hse] at h
      by_cases hb : pyLower t ∈ BOOLEANS
      · rw [if_pos hb] at h
        cases hpb : pyBooleanStr t with
        | error e => rw [hpb] at h; simp at h
        | ok b => rw [hpb] at h; simp at h
      · rw [if_neg hb] at h
        simp only [Except.ok.injEq, Val.text.injEq] at h
        exact h.symm

theorem typedValueF_text_le {f : Nat} {s t : PyStr}
    (h : typedValueF f s = .ok (.text t)) : t.length ≤ s.length := by
  cases f with
  | zero => simp [typedValueF] at h
  | succ f =>
    have ht : t = unquote s := typedBody_eq_text h
    rw [ht]
    exact unquote_length_le s

theorem pyBooleanStr_error {s : PyStr} {e : PyErr} (h : pyBooleanStr s = .error e) :
    e = PyErr.typeError := by
  unfold pyBooleanStr at h
  split at h
  · simp at h
  · split at h
    · simp at h
    · simp only [Except.error.injEq] at h
      exact h.symm

theorem error_ne_outOfFuel {α β : Type} {e : PyErr}
    (h : (Except.error e : Except PyErr α) ≠ Except.error PyErr.outOfFuel) :
    (Except.error e : Except PyErr β) ≠ Except.error PyErr.outOfFuel := by
  intro hcon
  injection hcon with hh
  rw [hh] at h
  exact h rfl

theorem typedValueF_ne_fuel : ∀ (f : Nat) (s : PyStr), s.length < f →
    typedValueF f s ≠ .error .outOfFuel := by
  intro f
  induction f with
  | zero => intro s h; omega
  | succ g ih =>
    intro s hs
    have hs' : s.length ≤ g := by omega
    show typedBody (typedValueF g) (unquote s) ≠ .error .outOfFuel
    have ht : (unquote s).length ≤ g := le_trans (unquote_length_le s) hs'
    generalize hteq : unquote s = t at ht
    by_cases hc : containsChar ',' t = true
    · rw [typedBody_comma hc]
      have hmp : mapPieces (typedValueF g) (splitOnChar ',' t) ≠ .error .outOfFuel := by
        apply mapPieces_not_fuel
        intro p hp
        apply ih
        have h1 := splitOnChar_length_lt hc hp
        have h2 := pyStrip_length_le p
        omega
      cases hmpv : mapPieces (typedValueF g) (splitOnChar ',' t) with
      | error e =>
        rw [hmpv] at hmp
        show (Except.error e : Except PyErr Val) ≠ Except.error PyErr.outOfFuel
        exact error_ne_outOfFuel hmp
      | ok items =>
        show (if (items.any (isTextOf ';') && items.any (isTextOf '=')) = true then
            (Except.error PyErr.attributeError : Except PyErr Val)
          else Except.ok (Val.list items)) ≠ Except.error PyErr.outOfFuel
        split <;> simp
    · rw [Bool.not_eq_true] at hc
      by_cases hse : (containsChar ';' t && containsChar '=' t) = true
      · rw [typedBody_semi hc hse]
        have hsemi : containsChar ';' t = true := (bool_and_parts hse).1
        have hmp : mapPieces (typedValueF g) (splitOnChar ';' t) ≠ .error .outOfFuel := by
          apply mapPieces_not_fuel
          intro p hp
          apply ih
          have h1 := splitOnChar_length_lt hsemi hp
          have h2 := pyStrip_length_le p
          omega
        cases hmpv : mapPieces (typedValueF g) (splitOnChar ';' t) with
        | error e =>
          rw [hmpv] at hmp
          show (Except.error e : Except PyErr Val) ≠ Except.error PyErr.outOfFuel
          exact error_ne_outOfFuel hmp
        | ok items =>
          have hbd : buildDict (typedValueF g) items [] ≠ .error .outOfFuel := by
            apply buildDict_not_fuel
            intro t' k v hmem hspl
            apply ih
            have hfa := mapPieces_ok_forall₂ hmpv
            obtain ⟨p, hp, htp⟩ := forall₂_mem_right hfa _ hmem
            have ht' : t'.length ≤ (pyStrip p).length := typedValueF_text_le htp
            have hps : (pyStrip p).length ≤ p.length := pyStrip_length_le p
            have hpl : p.length < t.length := splitOnChar_length_lt hsemi hp
            have hv : v ∈ splitOnChar '=' t' := by rw [hspl]; simp
            have hvs : v.length ≤ t'.length := (splitOnChar_mem_sublist hv).length_le
            have hvv := pyStrip_length_le v
            omega
          show (match buildDict (typedValueF g) items [] with
            | Except.error e => (Except.error e : Except PyErr Val)
            | Except.ok d => Except.ok (Val.dict d)) ≠ Except.error PyErr.outOfFuel
          cases hbdv : buildDict (typedValueF g) items [] with
          | error e =>
            rw [hbdv] at hbd
            show (Except.error e : Except PyErr Val) ≠ Except.error PyErr.outOfFuel
            exact error_ne_outOfFuel hbd
          | ok d => simp
      · rw [Bool.not_eq_true] at hse
        rw [typedBody_other hc hse]
        split
        · cases hpb : pyBooleanStr t with
          | error e =>
            have he := pyBooleanStr_error hpb
            rw [he]
            simp
          | ok b => simp
        · simp

theorem typedBody_congr {tv tv' : PyStr → Except PyErr Val} {t : PyStr}
    (htext : ∀ u t', tv u = .ok (.text t') → t'.length ≤ u.length)
    (h : ∀ u : PyStr, u.length < t.length → tv' u = tv u) :
    typedBody tv' t = typedBody tv t := by
  by_cases hc : containsChar ',' t = true
  · rw [typedBody_comma hc, typedBody_comma hc]
    rw [mapPieces_congr (fun p hp => h (pyStrip p) (by
      have h1 := splitOnChar_length_lt hc hp
      have h2 := pyStrip_length_le p
      omega))]
  · rw [Bool.not_eq_true] at hc
    by_cases hse : (containsChar ';' t && containsChar '=' t) = true
    · rw [typedBody_semi hc hse, typedBody_semi hc hse]
      have hsemi : containsChar ';' t = true := (bool_and_parts hse).1
      have hmpc : mapPieces tv' (splitOnChar ';' t) = mapPieces tv (splitOnChar ';' t) :=
        mapPieces_congr (fun p hp => h (pyStrip p) (by
          have h1 := splitOnChar_length_lt hsemi hp
          have h2 := pyStrip_length_le p
          omega))
      rw [hmpc]
      cases hmp : mapPieces tv (splitOnChar ';' t) with
      | error e => rfl
      | ok items =>
        have hbd : buildDict tv' items [] = buildDict tv items [] := by
          apply buildDict_congr
          intro t' k v hmem hspl
          have hfa := mapPieces_ok_forall₂ hmp
          obtain ⟨p, hp, htp⟩ := forall₂_mem_right hfa _ hmem
          have ht' : t'.length ≤ (pyStrip p).length := htext _ _ htp
          have hps : (pyStrip p).length ≤ p.length := pyStrip_length_le p
          have hpl : p.length < t.length := splitOnChar_length_lt hsemi hp
          have hv : v ∈ splitOnChar '=' t' := by rw [hspl]; simp
          have hvs : v.length ≤ t'.length := (splitOnChar_mem_sublist hv).length_le
          have hvv := pyStrip_length_le v
          exact h (pyStrip v) (by omega)
        show (match buildDict tv' items [] with
            | Except.error e => (Except.error e : Except PyErr Val)
            | Except.ok d => Except.ok (Val.dict d)) =
          (match buildDict tv items [] with
            | Except.error e => Except.error e
            | Except.ok d => Except.ok (Val.dict d))
        rw [hbd]
    · rw [Bool.not_eq_true] at hse
      rw [typedBody_other hc hse, typedBody_other hc hse]

theorem typedValueF_fuel_eq : ∀ (f : Nat) (s : PyStr), s.length < f →
    typedValueF f s = typedValue s := by
  intro f
  induction f using Nat.strong_induction_on with
  | _ f ih =>
    match f with
    | 0 => intro s h; omega
    | g + 1 =>
      intro s hs
      have hs' : s.length ≤ g := by omega
      show typedBody (typedValueF g) (unquote s) = typedValue s
      unfold typedValue
      show typedBody (typedValueF g) (unquote s) =
        typedBody (typedValueF s.length) (unquote s)
      apply typedBody_congr
      · intro u t' hu
        exact typedValueF_text_le hu
      · intro u hu
        have hul : u.length < (unquote s).length := hu
        have husl : (unquote s).length ≤ s.length := unquote_length_le s
        rcases Nat.eq_zero_or_pos s.length with hz | hpos
        · omega
        · rw [ih g (by omega) u (by omega)]
          rw [ih s.length (by omega) u (by omega)]

theorem typedValue_unfold (s : PyStr) :
    typedValue s = typedBody (typedValueF s.length) (unquote s) := rfl

/-! Key-pattern and `main` loop facts. -/

theorem pySpace_toNat {c : Char} (h : isPySpace c = true) : c.toNat ≤ 32 := by
  unfold isPySpace at h
  simp only [Bool.or_eq_true, decide_eq_true_eq] at h
  rcases h with ((((rfl | rfl) | rfl) | rfl) | rfl) | rfl <;> decide

theorem keyBody_toNat {c : Char} (h : isKeyBody c = true) : 45 ≤ c.toNat := by
  unfold isKeyBody isKeyStart at h
  simp only [Bool.or_eq_true, Bool.and_eq_true, decide_eq_true_eq] at h
  omega

theorem keyBody_not_space {c : Char} (h : isKeyBody c = true) : isPySpace c = false := by
  cases hsp : isPySpace c with
  | false => rfl
  | true =>
    have h1 := pySpace_toNat hsp
    have h2 := keyBody_toNat h
    omega

theorem keyStart_keyBody {c : Char} (h : isKeyStart c = true) : isKeyBody c = true := by
  unfold isKeyBody
  rw [h]
  rfl

theorem pyCharLower_keyStart {c : Char} (h : isKeyStart c = true) :
    isKeyStart (pyCharLower c) = true := by
  unfold pyCharLower
  split <;> first | decide | exact h

theorem pyCharLower_keyBody {c : Char} (h : isKeyBody c = true) :
    isKeyBody (pyCharLower c) = true := by
  unfold pyCharLower
  split <;> first | decide | exact h

theorem regexKeyCore_lower {k : PyStr} (h : regexKeyCore k = true) :
    regexKeyCore (pyLower k) = true := by
  cases k with
  | nil => simp [regexKeyCore] at h
  | cons c cs =>
    obtain ⟨h1, h2⟩ := bool_and_parts h
    have h1' := pyCharLower_keyStart h1
    have h2' : (cs.map pyCharLower).all isKeyBody = true := by
      rw [List.all_map, List.all_eq_true]
      intro x hx
      exact pyCharLower_keyBody (List.all_eq_true.mp h2 x hx)
    show (isKeyStart (pyCharLower c) && (cs.map pyCharLower).all isKeyBody) = true
    rw [h1', h2']
    rfl

theorem regexKeyCore_append {p k : PyStr} (hp : regexKeyCore p = true)
    (hk : regexKeyCore k = true) : regexKeyCore (p ++ k) = true := by
  cases p with
  | nil => simp [regexKeyCore] at hp
  | cons c cs =>
    obtain ⟨h1, h2⟩ := bool_and_parts hp
    cases k with
    | nil => simp [regexKeyCore] at hk
    | cons d ds =>
      obtain ⟨h3, h4⟩ := bool_and_parts hk
      show (isKeyStart c && (cs ++ d :: ds).all isKeyBody) = true
      rw [h1, List.all_append, h2]
      show (true && (true && (isKeyBody d && ds.all isKeyBody))) = true
      rw [keyStart_keyBody h3, h4]
      rfl

theorem dropWhile_false {p : Char → Bool} {s : PyStr} (h : ∀ c ∈ s, p c = false) :
    s.dropWhile p = s := by
  cases s with
  | nil => rfl
  | cons x xs =>
    rw [List.dropWhile_cons, h x (List.mem_cons_self x xs)]
    simp

theorem pyStrip_eq_self {s : PyStr} (h : ∀ c ∈ s, isPySpace c = false) : pyStrip s = s := by
  unfold pyStrip
  rw [dropWhile_false h]
  rw [dropWhile_false (fun c hc => h c (List.mem_reverse.mp hc))]
  exact List.reverse_reverse s

theorem matchKeyValue_key {line : PyStr} {k v : PyStr}
    (h : matchKeyValue line = some (k, v)) :
    regexKeyCore k = true ∧ pyStrip k = k := by
  cases line with
  | nil => simp [matchKeyValue] at h
  | cons c cs =>
    simp only [matchKeyValue] at h
    by_cases hc : isKeyStart c = true
    · rw [if_pos hc] at h
      split at h
      · simp only [Option.some.injEq, Prod.mk.injEq] at h
        obtain ⟨hk, hv⟩ := h
        rw [← hk]
        constructor
        · show (isKeyStart c && (cs.takeWhile isKeyBody).all isKeyBody) = true
          rw [hc]
          simp only [Bool.true_and, List.all_eq_true]
          intro x hx
          exact List.mem_takeWhile_imp hx
        · apply pyStrip_eq_self
          intro x hx
          rcases List.mem_cons.mp hx with rfl | hx2
          · exact keyBody_not_space (keyStart_keyBody hc)
          · exact keyBody_not_space (List.mem_takeWhile_imp hx2)
      · simp at h
    · rw [if_neg hc] at h
      simp at h

/-- The composed final key of one line: `prefix + key`, then lower-cased when
requested. -/
def composedKey (p : Params) (k0 : PyStr) : PyStr :=
  if p.lower then pyLower (if p.pfx ≠ [] then p.pfx ++ k0 else k0)
  else (if p.pfx ≠ [] then p.pfx ++ k0 else k0)

theorem composedKey_valid {p : Params} {k : PyStr}
    (hp : p.pfx = [] ∨ regexKeyCore p.pfx = true) (hk : regexKeyCore k = true) :
    regexKeyCore (composedKey p k) = true := by
  have hbase : regexKeyCore (if p.pfx ≠ [] then p.pfx ++ k else k) = true := by
    by_cases hne : p.pfx ≠ []
    · rw [if_pos hne]
      rcases hp with hnil | hpm
      · exact absurd hnil hne
      · exact regexKeyCore_append hpm hk
    · rw [if_neg hne]
      exact hk
  unfold composedKey
  by_cases hl : p.lower = true
  · simp only [hl, if_true]
    exact regexKeyCore_lower hbase
  · simp only [hl, if_false]
    exact hbase

theorem regexKeyMatch_of_core {s : PyStr} (h : regexKeyCore s = true) :
    regexKeyMatch s = true := by
  unfold regexKeyMatch
  rw [h]
  rfl

theorem regexKeyMatch_cases {s : PyStr} (h : regexKeyMatch s = true) :
    regexKeyCore s = true ∨
    (s.getLast? = some '\n' ∧ regexKeyCore s.dropLast = true) := by
  unfold regexKeyMatch at h
  simp only [Bool.or_eq_true, Bool.and_eq_true, decide_eq_true_eq] at h
  exact h

theorem regexKeyCore_chars {s : PyStr} (h : regexKeyCore s = true) :
    ∀ c ∈ s, isKeyBody c = true := by
  cases s with
  | nil => intro c hc; cases hc
  | cons a as =>
    obtain ⟨h1, h2⟩ := bool_and_parts h
    intro c hc
    rcases List.mem_cons.mp hc with rfl | hc2
    · exact keyStart_keyBody h1
    · exact List.all_eq_true.mp h2 c hc2

theorem regexKeyCore_no_newline {s : PyStr} (h : '\n' ∈ s) :
    regexKeyCore s = false := by
  cases hx : regexKeyCore s
  · rfl
  · have hb := regexKeyCore_chars hx '\n' h
    have h2 := keyBody_toNat hb
    have h3 : ('\n').toNat = 10 := rfl
    omega

theorem keyBody_ne_newline {c : Char} (h : isKeyBody c = true) : c ≠ '\n' := by
  have h2 := keyBody_toNat h
  intro hc
  rw [hc] at h2
  have h3 : ('\n').toNat = 10 := rfl
  omega

theorem keyBody_lower_ne_newline {c : Char} (h : isKeyBody c = true) :
    pyCharLower c ≠ '\n' :=
  keyBody_ne_newline (pyCharLower_keyBody h)

theorem mem_of_getLast_eq {l : PyStr} {a : Char} (h : l.getLast? = some a) : a ∈ l := by
  have hne : l ≠ [] := by
    intro hl
    rw [hl] at h
    simp at h
  rw [List.getLast?_eq_getLast l hne] at h
  have h2 := List.getLast_mem hne
  rw [Option.some.inj h] at h2
  exact h2

/-- With a prefix that passed validation, either every composed key of a
pattern-matched line is valid, or (prefix ending in a newline, accepted only
through the `$`-before-trailing-newline quirk) every composed key is
invalid. -/
theorem composedKey_cases {p : Params}
    (hp : p.pfx = [] ∨ regexKeyMatch p.pfx = true) :
    (∀ k0 : PyStr, regexKeyCore k0 = true → regexKeyMatch (composedKey p k0) = true) ∨
    (∀ k0 : PyStr, regexKeyCore k0 = true → regexKeyMatch (composedKey p k0) = false) := by
  rcases hp with hnil | hmatch
  · left
    intro k0 hk0
    exact regexKeyMatch_of_core (composedKey_valid (Or.inl hnil) hk0)
  · rcases regexKeyMatch_cases hmatch with hcore | ⟨hlast, hdrop⟩
    · left
      intro k0 hk0
      exact regexKeyMatch_of_core (composedKey_valid (Or.inr hcore) hk0)
    · right
      intro k0 hk0
      have hne : p.pfx ≠ [] := by
        intro hl
        rw [hl] at hlast
        simp at hlast
      have hnl_mem : '\n' ∈ p.pfx := mem_of_getLast_eq hlast
      have hbase_eq : (if p.pfx ≠ [] then p.pfx ++ k0 else k0) = p.pfx ++ k0 := if_pos hne
      obtain ⟨c0, cs0, rfl⟩ : ∃ c0 cs0, k0 = c0 :: cs0 := by
        cases k0 with
        | nil => simp [regexKeyCore] at hk0
        | cons a as => exact ⟨a, as, rfl⟩
      have hlast_base : (p.pfx ++ c0 :: cs0).getLast? = (c0 :: cs0).getLast? :=
        List.getLast?_append_cons _ _ _
      have hne0 : (c0 :: cs0) ≠ [] := by simp
      have hd1 : (c0 :: cs0).getLast? = some ((c0 :: cs0).getLast hne0) :=
        List.getLast?_eq_getLast _ hne0
      have hd2 : isKeyBody ((c0 :: cs0).getLast hne0) = true :=
        regexKeyCore_chars hk0 _ (List.getLast_mem hne0)
      unfold composedKey
      by_cases hl : p.lower = true
      · rw [if_pos hl]
        rw [hbase_eq]
        have hmem : '\n' ∈ pyLower (p.pfx ++ c0 :: cs0) := by
          unfold pyLower
          exact List.mem_map.mpr ⟨'\n', List.mem_append.mpr (Or.inl hnl_mem), rfl⟩
        have hcorec : regexKeyCore (pyLower (p.pfx ++ c0 :: cs0)) = false :=
          regexKeyCore_no_newline hmem
        have hlst : (pyLower (p.pfx ++ c0 :: cs0)).getLast? ≠ some '\n' := by
          unfold pyLower
          rw [List.getLast?_map, hlast_base, hd1]
          intro hcon
          simp only [Option.map_some', Option.some.injEq] at hcon
          exact keyBody_lower_ne_newline hd2 hcon
        unfold regexKeyMatch
        rw [hcorec]
        simp [hlst]
      · rw [if_neg hl]
        rw [hbase_eq]
        have hmem : '\n' ∈ p.pfx ++ c0 :: cs0 := List.mem_append.mpr (Or.inl hnl_mem)
        have hcorec : regexKeyCore (p.pfx ++ c0 :: cs0) = false :=
          regexKeyCore_no_newline hmem
        have hlst : (p.pfx ++ c0 :: cs0).getLast? ≠ some '\n' := by
          rw [hlast_base, hd1]
          intro hcon
          exact keyBody_ne_newline hd2 (Option.some.inj hcon)
        unfold regexKeyMatch
        rw [hcorec]
        have hdec : decide ((p.pfx ++ c0 :: cs0).getLast? = some '\n') = false := by
          rw [decide_eq_false_iff_not]
          exact hlst
        rw [hdec]
        rfl

theorem mainLoop_nil {p : Params} {vars : List (PyStr × Val)} {result : ModuleResult} :
    mainLoop p [] vars result = .exit result := rfl

theorem mainLoop_cons_none {p : Params} {line : PyStr} {rest : List PyStr}
    {vars : List (PyStr × Val)} {result : ModuleResult}
    (hm : matchKeyValue line = none) :
    mainLoop p (line :: rest) vars result = mainLoop p rest vars result := by
  simp only [mainLoop, hm]

theorem mainLoop_cons_some {p : Params} {line : PyStr} {rest : List PyStr}
    {vars : List (PyStr × Val)} {result : ModuleResult} {k0 v0 : PyStr}
    (hm : matchKeyValue line = some (k0, v0)) :
    mainLoop p (line :: rest) vars result =
      if regexKeyMatch (composedKey p (pyStrip k0)) then
        match typedValue (pyStrip v0) with
        | .error e => .crash e
        | .ok v =>
          mainLoop p rest (dictUpdate vars (composedKey p (pyStrip k0)) v)
            (if p.checkMode then result
             else { result with vars := some (dictUpdate vars (composedKey p (pyStrip k0)) v) })
      else .fail (.invalidKey (composedKey p (pyStrip k0))) result := by
  simp only [mainLoop, hm, composedKey]

theorem mainLoop_no_invalidKey_of_valid {p : Params}
    (hall : ∀ k0 : PyStr, regexKeyCore k0 = true →
      regexKeyMatch (composedKey p k0) = true) :
    ∀ (lines : List PyStr) (vars : List (PyStr × Val)) (result : ModuleResult),
      isInvalidKeyFail (mainLoop p lines vars result) = false := by
  intro lines
  induction lines with
  | nil => intro vars result; rfl
  | cons line rest ih =>
    intro vars result
    cases hm : matchKeyValue line with
    | none =>
      rw [mainLoop_cons_none hm]
      exact ih vars result
    | some kv =>
      obtain ⟨k0, v0⟩ := kv
      rw [mainLoop_cons_some hm]
      obtain ⟨hk, hks⟩ := matchKeyValue_key hm
      have hk' : regexKeyCore (pyStrip k0) = true := by rw [hks]; exact hk
      rw [if_pos (hall (pyStrip k0) hk')]
      cases htv : typedValue (pyStrip v0) with
      | error e => rfl
      | ok v => exact ih _ _

/-- When the loop ends in the invalid-key failure, the `result` it reports is
the one it started from: with a validated prefix either every composed key is
valid (no such failure) or every one is invalid, so the first matching line
already fails and no vars were attached on the way. -/
theorem mainLoop_invalidKey_payload {p : Params}
    (hp : p.pfx = [] ∨ regexKeyMatch p.pfx = true) :
    ∀ (lines : List PyStr) (vars : List (PyStr × Val)) (result r : ModuleResult)
      (k : PyStr), mainLoop p lines vars result = .fail (.invalidKey k) r →
      r = result := by
  rcases composedKey_cases hp with hall | hnone
  · intro lines vars result r k h
    have hfalse := mainLoop_no_invalidKey_of_valid hall lines vars result
    rw [h] at hfalse
    simp [isInvalidKeyFail] at hfalse
  · intro lines
    induction lines with
    | nil =>
      intro vars result r k h
      rw [mainLoop_nil] at h
      simp at h
    | cons line rest ih =>
      intro vars result r k h
      cases hm : matchKeyValue line with
      | none =>
        rw [mainLoop_cons_none hm] at h
        exact ih _ _ _ _ h
      | some kv =>
        obtain ⟨k0, v0⟩ := kv
        rw [mainLoop_cons_some hm] at h
        obtain ⟨hk, hks⟩ := matchKeyValue_key hm
        have hk' : regexKeyCore (pyStrip k0) = true := by rw [hks]; exact hk
        have hck := hnone (pyStrip k0) hk'
        rw [if_neg (by simp [hck])] at h
        injection h with h1 h2
        rw [h2]

theorem mainLoop_exit_changed {p : Params} :
    ∀ (lines : List PyStr) (vars : List (PyStr × Val)) (result r : ModuleResult),
      mainLoop p lines vars result = .exit r → r.changed = result.changed := by
  intro lines
  induction lines with
  | nil =>
    intro vars result r h
    rw [mainLoop_nil] at h
    injection h with h1
    rw [h1]
  | cons line rest ih =>
    intro vars result r h
    cases hm : matchKeyValue line with
    | none =>
      rw [mainLoop_cons_none hm] at h
      exact ih _ _ _ h
    | some kv =>
      obtain ⟨k0, v0⟩ := kv
      rw [mainLoop_cons_some hm] at h
      by_cases hck : regexKeyMatch (composedKey p (pyStrip k0)) = true
      · rw [if_pos hck] at h
        cases htv : typedValue (pyStrip v0) with
        | error e => rw [htv] at h; simp at h
        | ok v =>
          rw [htv] at h
          have hr := ih _ _ _ h
          by_cases hcm : p.checkMode = true
          · rw [if_pos hcm] at hr
            exact hr
          · rw [if_neg hcm] at hr
            exact hr
      · rw [if_neg hck] at h
        simp at h

theorem mainRun_exit_changed {p : Params} {r : ModuleResult}
    (h : mainRun p = .exit r) : r.changed = false := by
  simp only [mainRun] at h
  split at h
  · simp at h
  · split at h
    · simp at h
    · exact mainLoop_exit_changed _ _ _ _ h

theorem mainLoop_skip_all {p : Params} :
    ∀ (lines : List PyStr), (∀ l ∈ lines, matchKeyValue l = none) →
    ∀ (vars : List (PyStr × Val)) (result : ModuleResult),
      mainLoop p lines vars result = .exit result := by
  intro lines
  induction lines with
  | nil => intro h vars result; rfl
  | cons line rest ih =>
    intro h vars result
    rw [mainLoop_cons_none (h line (List.mem_cons_self _ _))]
    exact ih (fun l hl => h l (List.mem_cons_of_mem _ hl)) vars result

theorem mainLoop_checkMode_vars {p : Params} (hcm : p.checkMode = true) :
    ∀ (lines : List PyStr) (vars : List (PyStr × Val)) (result r : ModuleResult),
      mainLoop p lines vars result = .exit r → r.vars = result.vars := by
  intro lines
  induction lines with
  | nil =>
    intro vars result r h
    rw [mainLoop_nil] at h
    injection h with h1
    rw [h1]
  | cons line rest ih =>
    intro vars result r h
    cases hm : matchKeyValue line with
    | none =>
      rw [mainLoop_cons_none hm] at h
      exact ih _ _ _ h
    | some kv =>
      obtain ⟨k0, v0⟩ := kv
      rw [mainLoop_cons_some hm] at h
      by_cases hck : regexKeyMatch (composedKey p (pyStrip k0)) = true
      · rw [if_pos hck] at h
        cases htv : typedValue (pyStrip v0) with
        | error e => rw [htv] at h; simp at h
        | ok v =>
          rw [htv] at h
          have hr := ih _ _ _ h
          rw [if_pos hcm] at hr
          exact hr
      · rw [if_neg hck] at h
        simp at h

/-! Facts about the boolean-token set. -/

theorem booleans_strip_self {t : PyStr} (h : t ∈ BOOLEANS) : pyStrip t = t := by
  simp only [BOOLEANS, BOOLEANS_TRUE, BOOLEANS_FALSE, List.mem_append,
    List.mem_cons, List.not_mem_nil, or_false] at h
  rcases h with (rfl | rfl | rfl | rfl | rfl | rfl) | (rfl | rfl | rfl | rfl | rfl | rfl) <;> rfl

theorem pyBooleanStr_true {s : PyStr} (ht : pyLower s ∈ BOOLEANS_TRUE) :
    pyBooleanStr s = .ok true := by
  have h : pyLower s ∈ BOOLEANS := by
    unfold BOOLEANS
    exact List.mem_append.mpr (Or.inl ht)
  have hst := booleans_strip_self h
  unfold pyBooleanStr
  rw [hst, if_pos ht]

theorem pyBooleanStr_false {s : PyStr} (hf : pyLower s ∈ BOOLEANS_FALSE)
    (hnt : pyLower s ∉ BOOLEANS_TRUE) : pyBooleanStr s = .ok false := by
  have h : pyLower s ∈ BOOLEANS := by
    unfold BOOLEANS
    exact List.mem_append.mpr (Or.inr hf)
  have hst := booleans_strip_self h
  unfold pyBooleanStr
  rw [hst, if_neg hnt, if_pos hf]

theorem pyBooleanStr_ok_of_mem {s : PyStr} (h : pyLower s ∈ BOOLEANS) :
    ∃ b, pyBooleanStr s = .ok b := by
  unfold BOOLEANS at h
  rcases List.mem_append.mp h with ht | hf
  · exact ⟨true, pyBooleanStr_true ht⟩
  · by_cases htt : pyLower s ∈ BOOLEANS_TRUE
    · exact ⟨true, pyBooleanStr_true htt⟩
    · exact ⟨false, pyBooleanStr_false hf htt⟩

/-- A delimiter-free string is typed to its unquoted text, or to a boolean
when its lower-casing is a recognized token; it never raises. -/
theorem typedValue_plain {s : PyStr}
    (h1 : containsChar ',' (unquote s) = false)
    (h2 : (containsChar ';' (unquote s) && containsChar '=' (unquote s)) = false) :
    (pyLower (unquote s) ∉ BOOLEANS ∧ typedValue s = .ok (.text (unquote s))) ∨
    (∃ b, pyLower (unquote s) ∈ BOOLEANS ∧ typedValue s = .ok (.bool b)) := by
  rw [typedValue_unfold, typedBody_other h1 h2]
  by_cases hb : pyLower (unquote s) ∈ BOOLEANS
  · right
    obtain ⟨b, hbb⟩ := pyBooleanStr_ok_of_mem hb
    refine ⟨b, hb, ?_⟩
    rw [if_pos hb, hbb]
  · left
    refine ⟨hb, ?_⟩
    rw [if_neg hb]

/-! Remaining helpers for the claim theorems. -/

theorem forall₂_imp_mem {α β : Type} {R S : α → β → Prop} {l₁ : List α} {l₂ : List β}
    (h : List.Forall₂ R l₁ l₂) (himp : ∀ a b, a ∈ l₁ → R a b → S a b) :
    List.Forall₂ S l₁ l₂ := by
  induction h with
  | nil => exact List.Forall₂.nil
  | @cons a b t₁ t₂ h1 h2 ih =>
    exact List.Forall₂.cons (himp a b (List.mem_cons_self _ _) h1)
      (ih (fun a' b' ha' hr => himp a' b' (List.mem_cons_of_mem _ ha') hr))

theorem forall₂_mem_left {α β : Type} {R : α → β → Prop} {l₁ : List α} {l₂ : List β}
    (h : List.Forall₂ R l₁ l₂) : ∀ a ∈ l₁, ∃ b ∈ l₂, R a b := by
  induction h with
  | nil => intro a ha; cases ha
  | @cons a b t₁ t₂ h1 h2 ih =>
    intro a' ha'
    rcases List.mem_cons.mp ha' with rfl | ha2
    · exact ⟨b, List.mem_cons_self _ _, h1⟩
    · obtain ⟨b', hb', hr⟩ := ih a' ha2
      exact ⟨b', List.mem_cons_of_mem _ hb', hr⟩

theorem mapPieces_ok_of_all {tv : PyStr → Except PyErr Val} :
    ∀ {ps : List PyStr}, (∀ p ∈ ps, ∃ v, tv (pyStrip p) = .ok v) →
    ∃ items, mapPieces tv ps = .ok items := by
  intro ps
  induction ps with
  | nil => intro h; exact ⟨[], rfl⟩
  | cons p ps ih =>
    intro h
    obtain ⟨v, hv⟩ := h p (List.mem_cons_self _ _)
    obtain ⟨items, hitems⟩ := ih (fun q hq => h q (List.mem_cons_of_mem _ hq))
    refine ⟨v :: items, ?_⟩
    simp only [mapPieces]
    rw [hv, hitems]

theorem dictUpdate_keys {d : List (PyStr × Val)} {k0 : PyStr} {v : Val} {k : PyStr} :
    k ∈ (dictUpdate d k0 v).map Prod.fst ↔ k ∈ d.map Prod.fst ∨ k = k0 := by
  unfold dictUpdate
  split
  case isTrue h =>
    have hkeys : (d.map (fun p => if p.1 = k0 then (k0, v) else p)).map Prod.fst =
        d.map Prod.fst := by
      rw [List.map_map]
      apply List.map_congr_left
      intro a ha
      by_cases hak : a.1 = k0
      · simp [hak]
      · simp [hak]
    rw [hkeys]
    constructor
    · exact Or.inl
    · rintro (hk | rfl)
      · exact hk
      · obtain ⟨p, hp, hpk⟩ := List.any_eq_true.mp h
        rw [decide_eq_true_eq] at hpk
        exact List.mem_map.mpr ⟨p, hp, hpk⟩
  case isFalse h =>
    rw [List.map_append]
    simp [List.mem_append]

theorem foldl_dictUpdate_keys (es : List (PyStr × Val)) :
    ∀ (acc : List (PyStr × Val)) (k : PyStr),
      (k ∈ (es.foldl (fun d e => dictUpdate d e.1 e.2) acc).map Prod.fst ↔
       k ∈ acc.map Prod.fst ∨ k ∈ es.map Prod.fst) := by
  induction es with
  | nil => intro acc k; simp
  | cons e es ih =>
    intro acc k
    rw [List.foldl_cons, ih]
    rw [dictUpdate_keys]
    simp only [List.map_cons, List.mem_cons]
    tauto

theorem dictFromEntries_keys (es : List (PyStr × Val)) (k : PyStr) :
    k ∈ (dictFromEntries es).map Prod.fst ↔ k ∈ es.map Prod.fst := by
  unfold dictFromEntries
  rw [foldl_dictUpdate_keys]
  simp

theorem pyCharLower_digit {c : Char} (h : c.isDigit = true) : pyCharLower c = c := by
  unfold pyCharLower
  split <;> simp_all

theorem token_chars {t : PyStr} (h : t ∈ BOOLEANS) :
    containsChar ',' t = false ∧ containsChar ';' t = false ∧
    containsChar '=' t = false ∧ isQuotedB t = false := by
  simp only [BOOLEANS, BOOLEANS_TRUE, BOOLEANS_FALSE, List.mem_append,
    List.mem_cons, List.not_mem_nil, or_false] at h
  rcases h with (rfl | rfl | rfl | rfl | rfl | rfl) | (rfl | rfl | rfl | rfl | rfl | rfl) <;>
    exact ⟨rfl, rfl, rfl, rfl⟩

theorem pyLower_contains {c : Char} {s : PyStr} (hc : pyCharLower c = c)
    (h : containsChar c s = true) : containsChar c (pyLower s) = true := by
  rw [containsChar_iff_mem] at h ⊢
  exact List.mem_map.mpr ⟨c, h, hc⟩

theorem booleans_member_shape {s : PyStr} (hb : pyLower s ∈ BOOLEANS) :
    containsChar ',' s = false ∧ containsChar ';' s = false ∧ unquote s = s := by
  obtain ⟨ht1, ht2, _, ht4⟩ := token_chars hb
  have hc1 : containsChar ',' s = false := by
    cases hx : containsChar ',' s
    · rfl
    · have := pyLower_contains (c := ',') rfl hx
      rw [ht1] at this
      exact absurd this (by simp)
  have hc2 : containsChar ';' s = false := by
    cases hx : containsChar ';' s
    · rfl
    · have := pyLower_contains (c := ';') rfl hx
      rw [ht2] at this
      exact absurd this (by simp)
  refine ⟨hc1, hc2, ?_⟩
  have hq : isQuotedB s = false := by
    cases hx : isQuotedB s
    · rfl
    · exfalso
      unfold isQuotedB at hx ht4
      rw [decide_eq_true_eq] at hx
      rw [decide_eq_false_iff_not] at ht4
      apply ht4
      rcases hx with ⟨hh, hl⟩ | ⟨hh, hl⟩
      · left
        constructor
        · rw [pyLower, List.head?_map, hh]
          rfl
        · rw [pyLower, List.getLast?_map, hl]
          rfl
      · right
        constructor
        · rw [pyLower, List.head?_map, hh]
          rfl
        · rw [pyLower, List.getLast?_map, hl]
          rfl
  unfold unquote
  rw [hq]
  rfl

/-! The claims. -/

/-- C4 counterexample: the spec's own example line `1FOO=bar` (key starting
with a digit) does not trigger an invalid-key failure; the line never matches
the assignment regex, is silently skipped, and the run succeeds with no vars —
the claim says the whole operation fails at the point of detection. -/
theorem c4_counterexample :
    matchKeyValue ("1FOO=bar".toList) = none ∧
    mainRun ⟨true, ["1FOO=bar".toList], [], false, false⟩ =
      .exit { changed := false, vars := none } := ⟨rfl, rfl⟩

/-- C4 (amended): a line whose key part fails the KeyNamePattern never matches
the assignment regex and is silently skipped rather than aborting the run.
The post-composition key check is reachable only through Python's
`$`-matches-before-a-trailing-newline quirk (a validated prefix such as
"X\n" makes every composed key invalid, see the witness); whenever the run
does fail with InvalidKey, the failure happens at the first matching line and
its reported result carries `changed = false` and no vars entries — no
partial vars are handed to the caller. -/
theorem c4_invalid_key_aborts (p : Params) (k : PyStr) (r : ModuleResult)
    (h : mainRun p = .fail (.invalidKey k) r) :
    r.changed = false ∧ r.vars = none := by
  simp only [mainRun] at h
  split at h
  · simp at h
  · split at h
    · simp at h
    · next h2 =>
      have hp : p.pfx = [] ∨ regexKeyMatch p.pfx = true := by
        by_cases hpe : p.pfx = []
        · exact Or.inl hpe
        · right
          by_cases hr : regexKeyMatch p.pfx = true
          · exact hr
          · exfalso
            have hreg : regexKeyMatch p.pfx = false := by
              cases hx : regexKeyMatch p.pfx
              · rfl
              · exact absurd hx hr
            apply h2
            simp [hpe, hreg]
      have hres := mainLoop_invalidKey_payload hp p.fileLines [] _ r k h
      rw [hres]
      exact ⟨rfl, rfl⟩

/-- Witness for `c4_invalid_key_aborts`: the invalid-key failure is reachable —
the prefix "X\n" passes `regex_key.match` because Python's `$` matches just
before a trailing newline, while the composed key "X\nFOO" fails — and the
failure result carries no vars. -/
theorem c4_witness :
    mainRun ⟨true, ["FOO=bar".toList], "X\n".toList, false, false⟩ =
      .fail (.invalidKey ("X\nFOO".toList)) { changed := false, vars := none } ∧
    (({ changed := false, vars := none } : ModuleResult).changed = false ∧
     ({ changed := false, vars := none } : ModuleResult).vars = none) :=
  ⟨rfl, c4_invalid_key_aborts ⟨true, ["FOO=bar".toList], "X\n".toList, false, false⟩
    ("X\nFOO".toList) { changed := false, vars := none } rfl⟩

/-- C5: `typed_value` terminates on every finite input because every recursive
call is on a strictly shorter string: any fuel above the input length computes
the same result as `typedValue` (whose fuel is `length + 1`), and every
trimmed delimiter-split piece of a string containing the delimiter is strictly
shorter than the string. -/
theorem c5_typed_value_terminates (fuel : Nat) (s : PyStr) (hf : s.length < fuel) :
    typedValueF fuel s = typedValue s ∧
    (∀ c p, containsChar c s = true → p ∈ splitOnChar c s →
      (pyStrip p).length < s.length) := by
  constructor
  · exact typedValueF_fuel_eq fuel s hf
  · intro c p hc hp
    have h1 := splitOnChar_length_lt hc hp
    have h2 := pyStrip_length_le p
    omega

/-- Witness for `c5_typed_value_terminates` at fuel 4 and input "a,b". -/
theorem c5_witness :
    ("a,b".toList).length < 4 ∧ typedValueF 4 ("a,b".toList) = typedValue ("a,b".toList) :=
  ⟨by decide, (c5_typed_value_terminates 4 ("a,b".toList) (by decide)).1⟩

/-- C6: on a string surrounded by a matching quote pair, `typed_value` strips
exactly one quote layer and trims the interior, then proceeds with the
remaining classification (`typedBodyClean`), which performs no further quote
stripping; in particular `'hello'` and `"hello"` both type to `Text "hello"`,
and the doubly-quoted `''x''` keeps its inner quotes. -/
theorem c6_quote_stripping (s : PyStr) (hq : isQuotedB s = true) :
    typedValue s = typedBodyClean (pyStrip (dropFirstLast s)) ∧
    typedValue ("'hello'".toList) = .ok (.text ("hello".toList)) ∧
    typedValue ("\"hello\"".toList) = .ok (.text ("hello".toList)) ∧
    typedValue ("''x''".toList) = .ok (.text ("'x'".toList)) := by
  refine ⟨?_, rfl, rfl, rfl⟩
  rw [typedValue_unfold]
  have hu : unquote s = pyStrip (dropFirstLast s) := by
    unfold unquote
    rw [if_pos hq]
  rw [hu]
  unfold typedBodyClean
  have hle : (pyStrip (dropFirstLast s)).length ≤ s.length :=
    le_trans (pyStrip_length_le _) (dropFirstLast_sublist s).length_le
  apply typedBody_congr
  · intro u t' hut
    exact typedValueF_text_le hut
  · intro u hu2
    rw [typedValueF_fuel_eq s.length u (by omega),
      typedValueF_fuel_eq (pyStrip (dropFirstLast s)).length u hu2]

/-- Witness for `c6_quote_stripping` at "'hello'". -/
theorem c6_witness :
    isQuotedB ("'hello'".toList) = true ∧
    typedValue ("'hello'".toList) =
      typedBodyClean (pyStrip (dropFirstLast ("'hello'".toList))) :=
  ⟨by decide, (c6_quote_stripping ("'hello'".toList) (by decide)).1⟩

/-- C7: a string containing `=` but neither `;` nor `,` is never typed as a
mapping: `typed_value` returns the plain (unquoted) text, because mapping
detection requires both `;` and `=`, and a string containing `=` can never be
a boolean token. -/
theorem c7_no_mapping_without_semicolon (s : PyStr)
    (h1 : containsChar '=' s = true) (h2 : containsChar ';' s = false)
    (h3 : containsChar ',' s = false) :
    typedValue s = .ok (.text (unquote s)) := by
  have hcu_c : containsChar ',' (unquote s) = false :=
    containsChar_false_of_subset (unquote_sublist s).subset h3
  have hcu_s : containsChar ';' (unquote s) = false :=
    containsChar_false_of_subset (unquote_sublist s).subset h2
  have hse : (containsChar ';' (unquote s) && containsChar '=' (unquote s)) = false := by
    rw [hcu_s]
    rfl
  rcases typedValue_plain hcu_c hse with ⟨hnb, ht⟩ | ⟨b, hb, ht⟩
  · exact ht
  · exfalso
    have hcu_eq : containsChar '=' (unquote s) = true := by
      rw [containsChar_unquote (by decide) (by decide) (by decide) s]
      exact h1
    have hmem : '=' ∈ unquote s := containsChar_iff_mem.mp hcu_eq
    have hmem2 : '=' ∈ pyLower (unquote s) := by
      unfold pyLower
      exact List.mem_map.mpr ⟨'=', hmem, rfl⟩
    simp only [BOOLEANS, BOOLEANS_TRUE, BOOLEANS_FALSE, List.mem_append, List.mem_cons,
      List.not_mem_nil, or_false] at hb
    rcases hb with (h | h | h | h | h | h) | (h | h | h | h | h | h) <;>
      rw [h] at hmem2 <;> exact absurd hmem2 (by decide)

/-- Witness for `c7_no_mapping_without_semicolon` at "a=1". -/
theorem c7_witness :
    containsChar '=' ("a=1".toList) = true ∧
    typedValue ("a=1".toList) = .ok (.text ("a=1".toList)) :=
  ⟨by decide, c7_no_mapping_without_semicolon ("a=1".toList) (by decide) (by decide) (by decide)⟩

/-- C8: whenever the module exits successfully, the reported `changed` flag is
false, for every parameter set, file content, prefix and lower flag: the
`result` dict is created with `changed: False` and never modified. -/
theorem c8_changed_always_false (p : Params) (r : ModuleResult)
    (h : mainRun p = .exit r) : r.changed = false :=
  mainRun_exit_changed h

/-- Witness for `c8_changed_always_false` on an empty file. -/
theorem c8_witness :
    mainRun ⟨true, [], [], false, false⟩ = .exit { changed := false, vars := none } ∧
    ({ changed := false, vars := none } : ModuleResult).changed = false :=
  ⟨rfl, c8_changed_always_false ⟨true, [], [], false, false⟩ _ rfl⟩

/-- C9: if no line of the file matches the assignment regex, or the module
runs in check mode, a successful run returns a result with no `vars` key at
all (`none`), because `result["vars"]` is only assigned inside the per-line
loop and only outside check mode. -/
theorem c9_no_vars_key (p : Params) (r : ModuleResult)
    (h : mainRun p = .exit r)
    (hcase : (∀ l ∈ p.fileLines, matchKeyValue l = none) ∨ p.checkMode = true) :
    r.vars = none := by
  simp only [mainRun] at h
  split at h
  · simp at h
  · split at h
    · simp at h
    · rcases hcase with hskip | hcm
      · rw [mainLoop_skip_all p.fileLines hskip] at h
        injection h with h1
        rw [← h1]
      · have hv := mainLoop_checkMode_vars hcm p.fileLines [] _ r h
        rw [hv]

/-- Witness for `c9_no_vars_key` on a file holding a single comment line. -/
theorem c9_witness :
    mainRun ⟨true, ["# comment".toList], [], false, false⟩ =
      .exit { changed := false, vars := none } ∧
    (({ changed := false, vars := none } : ModuleResult).vars = none) :=
  ⟨rfl, c9_no_vars_key ⟨true, ["# comment".toList], [], false, false⟩ _ rfl
    (Or.inl (by decide))⟩

theorem typedValueF_text_eq {f : Nat} {s t : PyStr}
    (h : typedValueF f s = .ok (.text t)) : t = unquote s := by
  cases f with
  | zero => simp [typedValueF] at h
  | succ f => exact typedBody_eq_text h

/-- C1 counterexample: the string ";,=" contains a comma, so the claim says it
is typed as a two-element list with mapping detection not applying; in fact
the `";" in value and "=" in value` test fires on the produced list (both are
members) and `value.split(";")` raises AttributeError. -/
theorem c1_counterexample :
    containsChar ',' (";,=".toList) = true ∧
    typedValue (";,=".toList) = .error .attributeError := ⟨rfl, rfl⟩

/-- C1 (amended): for a comma-containing string, when typing every trimmed
comma-piece succeeds and the resulting elements do not include both the
string ";" and the string "=", `typed_value` returns the ordered list of the
recursively typed pieces, of length `count(commas) + 1`; otherwise the
invocation raises. -/
theorem c1_list_of_comma (s : PyStr) (items : List Val)
    (hc : containsChar ',' s = true)
    (hitems : List.Forall₂ (fun p v => typedValue (pyStrip p) = .ok v)
      (splitOnChar ',' (unquote s)) items)
    (hnm : (items.any (isTextOf ';') && items.any (isTextOf '=')) = false) :
    typedValue s = .ok (.list items) ∧ items.length = countChar ',' s + 1 := by
  have hcu : containsChar ',' (unquote s) = true := by
    rw [containsChar_unquote (by decide) (by decide) (by decide) s]
    exact hc
  have hf : mapPieces (typedValueF s.length) (splitOnChar ',' (unquote s)) = .ok items := by
    apply mapPieces_eq_ok
    refine forall₂_imp_mem hitems ?_
    intro p v hp hpv
    have h1 := splitOnChar_length_lt hcu hp
    have h2 := pyStrip_length_le p
    have h3 := unquote_length_le s
    rw [typedValueF_fuel_eq s.length (pyStrip p) (by omega)]
    exact hpv
  constructor
  · rw [typedValue_unfold, typedBody_comma_ok hcu hf, hnm]
    rfl
  · have hlen := List.Forall₂.length_eq hitems
    rw [← hlen, splitOnChar_count,
      countChar_unquote (by decide) (by decide) (by decide) s]

/-- Witness for `c1_list_of_comma` at "a,b". -/
theorem c1_witness :
    typedValue ("a,b".toList) = .ok (.list [.text ("a".toList), .text ("b".toList)]) ∧
    ([Val.text ("a".toList), Val.text ("b".toList)] : List Val).length =
      countChar ',' ("a,b".toList) + 1 :=
  c1_list_of_comma ("a,b".toList) [.text ("a".toList), .text ("b".toList)] (by decide)
    (@mapPieces_ok_forall₂ typedValue (splitOnChar ',' (unquote ("a,b".toList)))
      [.text ("a".toList), .text ("b".toList)] (by rfl)) (by decide)

/-- C2 counterexample: ";=" contains both ";" and "=" and no comma, so the
claim says a mapping comes back; in fact the first semicolon-piece "" has no
"=" and tuple unpacking raises ValueError. -/
theorem c2_counterexample :
    containsChar ';' (";=".toList) = true ∧ containsChar '=' (";=".toList) = true ∧
    containsChar ',' (";=".toList) = false ∧
    typedValue (";=".toList) = .error .valueError := ⟨rfl, rfl, rfl, rfl⟩

/-- C2 (amended): for a string with ";" and "=" but no comma, when every
trimmed semicolon-piece types to a string containing exactly one "=",
`typed_value` returns the mapping built by inserting, in piece order, the
trimmed substring left of that "=" (of the typed, i.e. quote-stripped, piece)
as key with the recursively typed trimmed right substring as value; the key
set of the result is exactly the set of those left substrings. -/
theorem c2_mapping (s : PyStr) (items : List Val) (entries : List (PyStr × Val))
    (h1 : containsChar ';' s = true) (h2 : containsChar '=' s = true)
    (h3 : containsChar ',' s = false)
    (hitems : List.Forall₂ (fun p it => typedValue (pyStrip p) = .ok it)
      (splitOnChar ';' (unquote s)) items)
    (hkv : List.Forall₂ (fun it e => ∃ t k v, it = Val.text t ∧
        splitOnChar '=' t = [k, v] ∧ e.1 = pyStrip k ∧
        typedValue (pyStrip v) = .ok e.2) items entries) :
    typedValue s = .ok (.dict (dictFromEntries entries)) ∧
    (∀ k, k ∈ (dictFromEntries entries).map Prod.fst ↔ k ∈ entries.map Prod.fst) := by
  have hcu_s : containsChar ';' (unquote s) = true := by
    rw [containsChar_unquote (by decide) (by decide) (by decide) s]
    exact h1
  have hcu_e : containsChar '=' (unquote s) = true := by
    rw [containsChar_unquote (by decide) (by decide) (by decide) s]
    exact h2
  have hcu_c : containsChar ',' (unquote s) = false :=
    containsChar_false_of_subset (unquote_sublist s).subset h3
  have hse : (containsChar ';' (unquote s) && containsChar '=' (unquote s)) = true := by
    rw [hcu_s, hcu_e]
    rfl
  have hf : mapPieces (typedValueF s.length) (splitOnChar ';' (unquote s)) = .ok items := by
    apply mapPieces_eq_ok
    refine forall₂_imp_mem hitems ?_
    intro p it hp hpit
    have hl1 := splitOnChar_length_lt hcu_s hp
    have hl2 := pyStrip_length_le p
    have hl3 := unquote_length_le s
    rw [typedValueF_fuel_eq s.length (pyStrip p) (by omega)]
    exact hpit
  have hkv' : List.Forall₂ (fun it e => ∃ t k v, it = Val.text t ∧
      splitOnChar '=' t = [k, v] ∧ e.1 = pyStrip k ∧
      typedValueF s.length (pyStrip v) = .ok e.2) items entries := by
    refine forall₂_imp_mem hkv ?_
    intro it e hin hex
    obtain ⟨t, k, v, rfl, hsp, hk, hv⟩ := hex
    refine ⟨t, k, v, rfl, hsp, hk, ?_⟩
    obtain ⟨p, hp, htp⟩ := forall₂_mem_right hitems _ hin
    have ht1 : t.length ≤ (pyStrip p).length := typedValueF_text_le htp
    have hl1 := splitOnChar_length_lt hcu_s hp
    have hl2 := pyStrip_length_le p
    have hl3 := unquote_length_le s
    have hv_mem : v ∈ splitOnChar '=' t := by
      rw [hsp]
      simp
    have hvs : v.length ≤ t.length := (splitOnChar_mem_sublist hv_mem).length_le
    have hl4 := pyStrip_length_le v
    rw [typedValueF_fuel_eq s.length (pyStrip v) (by omega)]
    exact hv
  constructor
  · rw [typedValue_unfold, typedBody_semi_ok hcu_c hse hf]
    have hbd := buildDict_eq_ok hkv' []
    show (match buildDict (typedValueF s.length) items [] with
      | Except.error e => (Except.error e : Except PyErr Val)
      | Except.ok d => Except.ok (Val.dict d)) =
      Except.ok (Val.dict (dictFromEntries entries))
    rw [hbd]
    rfl
  · intro k
    exact dictFromEntries_keys entries k

/-- Witness for `c2_mapping` at "a=1;b=x". -/
theorem c2_witness :
    typedValue ("a=1;b=x".toList) =
      .ok (.dict (dictFromEntries
        [("a".toList, .bool true), ("b".toList, .text ("x".toList))])) :=
  (c2_mapping ("a=1;b=x".toList)
    [.text ("a=1".toList), .text ("b=x".toList)]
    [("a".toList, .bool true), ("b".toList, .text ("x".toList))]
    (by decide) (by decide) (by decide)
    (@mapPieces_ok_forall₂ typedValue (splitOnChar ';' (unquote ("a=1;b=x".toList)))
      [.text ("a=1".toList), .text ("b=x".toList)] (by rfl))
    (List.Forall₂.cons
      ⟨"a=1".toList, "a".toList, "1".toList, rfl, rfl, rfl, rfl⟩
      (List.Forall₂.cons
        ⟨"b=x".toList, "b".toList, "x".toList, rfl, rfl, rfl, rfl⟩
        List.Forall₂.nil))).1

/-- C3 counterexample: on the value "a=1;b" the semicolon-piece "b" lacks an
"=", and the module does not surface a structured error: `typed_value` raises
a bare ValueError which escapes `main` as an unhandled crash. -/
theorem c3_counterexample :
    mainRun ⟨true, ["A=a=1;b".toList], [], false, false⟩ = .crash .valueError ∧
    typedValue ("a=1;b".toList) = .error .valueError := ⟨rfl, rfl⟩

/-- C3 (amended): during mapping detection, if some trimmed semicolon-piece
does not type to a string with exactly one "=" separator, the invocation
fails — with a raw ValueError (tuple unpacking) or AttributeError (`.split`
on a non-string) that propagates as an unhandled exception, not with a
structured module error. -/
theorem c3_malformed_mapping (s : PyStr)
    (h1 : containsChar ',' s = false) (h2 : containsChar ';' s = true)
    (h3 : containsChar '=' s = true)
    (hbad : ∃ q ∈ splitOnChar ';' (unquote s), ∀ t,
      typedValue (pyStrip q) = .ok (.text t) → (splitOnChar '=' t).length ≠ 2) :
    typedValue s = .error .valueError ∨ typedValue s = .error .attributeError := by
  have hcu_c : containsChar ',' (unquote s) = false :=
    containsChar_false_of_subset (unquote_sublist s).subset h1
  have hcu_s : containsChar ';' (unquote s) = true := by
    rw [containsChar_unquote (by decide) (by decide) (by decide) s]
    exact h2
  have hcu_e : containsChar '=' (unquote s) = true := by
    rw [containsChar_unquote (by decide) (by decide) (by decide) s]
    exact h3
  have hse : (containsChar ';' (unquote s) && containsChar '=' (unquote s)) = true := by
    rw [hcu_s, hcu_e]
    rfl
  have hok : ∀ q ∈ splitOnChar ';' (unquote s), ∃ v, typedValue (pyStrip q) = .ok v := by
    intro q hq
    have hq_c : containsChar ',' (pyStrip q) = false :=
      containsChar_false_of_subset
        ((pyStrip_sublist q).trans (splitOnChar_mem_sublist hq)).subset hcu_c
    have hq_s : containsChar ';' (pyStrip q) = false :=
      containsChar_false_of_subset (pyStrip_sublist q).subset (splitOnChar_not_contains hq)
    have hq_c2 : containsChar ',' (unquote (pyStrip q)) = false :=
      containsChar_false_of_subset (unquote_sublist _).subset hq_c
    have hq_s2 : containsChar ';' (unquote (pyStrip q)) = false :=
      containsChar_false_of_subset (unquote_sublist _).subset hq_s
    have hse2 : (containsChar ';' (unquote (pyStrip q)) &&
        containsChar '=' (unquote (pyStrip q))) = false := by
      rw [hq_s2]
      rfl
    rcases typedValue_plain hq_c2 hse2 with ⟨_, ht⟩ | ⟨b, _, ht⟩
    · exact ⟨_, ht⟩
    · exact ⟨_, ht⟩
  have hok2 : ∀ q ∈ splitOnChar ';' (unquote s), ∃ v,
      typedValueF s.length (pyStrip q) = .ok v := by
    intro q hq
    obtain ⟨v, hv⟩ := hok q hq
    have hl1 := splitOnChar_length_lt hcu_s hq
    have hl2 := pyStrip_length_le q
    have hl3 := unquote_length_le s
    refine ⟨v, ?_⟩
    rw [typedValueF_fuel_eq s.length (pyStrip q) (by omega)]
    exact hv
  obtain ⟨items, hitems⟩ := mapPieces_ok_of_all hok2
  have hfa := mapPieces_ok_forall₂ hitems
  have hvals : ∀ t k v, Val.text t ∈ items → splitOnChar '=' t = [k, v] →
      ∃ w, typedValueF s.length (pyStrip v) = .ok w := by
    intro t k v hmem hsp
    obtain ⟨q, hq, htq⟩ := forall₂_mem_right hfa _ hmem
    have ht_eq : t = unquote (pyStrip q) := typedValueF_text_eq htq
    have ht1 : t.length ≤ (pyStrip q).length := typedValueF_text_le htq
    have hl1 := splitOnChar_length_lt hcu_s hq
    have hl2 := pyStrip_length_le q
    have hl3 := unquote_length_le s
    have hv_mem : v ∈ splitOnChar '=' t := by
      rw [hsp]
      simp
    have hvs : v.length ≤ t.length := (splitOnChar_mem_sublist hv_mem).length_le
    have hl4 := pyStrip_length_le v
    have hchain : List.Sublist (pyStrip v) q := by
      refine ((pyStrip_sublist v).trans (splitOnChar_mem_sublist hv_mem)).trans ?_
      rw [ht_eq]
      exact (unquote_sublist (pyStrip q)).trans (pyStrip_sublist q)
    have hv_c : containsChar ',' (unquote (pyStrip v)) = false := by
      refine containsChar_false_of_subset ((unquote_sublist _).trans hchain).subset ?_
      exact containsChar_false_of_subset (splitOnChar_mem_sublist hq).subset hcu_c
    have hv_s : containsChar ';' (unquote (pyStrip v)) = false := by
      refine containsChar_false_of_subset ((unquote_sublist _).trans hchain).subset ?_
      exact splitOnChar_not_contains hq
    have hse3 : (containsChar ';' (unquote (pyStrip v)) &&
        containsChar '=' (unquote (pyStrip v))) = false := by
      rw [hv_s]
      rfl
    have hplain := typedValue_plain hv_c hse3
    have hfuel : typedValueF s.length (pyStrip v) = typedValue (pyStrip v) := by
      apply typedValueF_fuel_eq
      omega
    rcases hplain with ⟨_, ht2⟩ | ⟨b, _, ht2⟩
    · exact ⟨_, by rw [hfuel]; exact ht2⟩
    · exact ⟨_, by rw [hfuel]; exact ht2⟩
  have hbaditem : ∃ it ∈ items, badItem it := by
    obtain ⟨q, hq, hqbad⟩ := hbad
    obtain ⟨it, hit, htq⟩ := forall₂_mem_left hfa q hq
    refine ⟨it, hit, ?_⟩
    cases it with
    | text t =>
      have hl1 := splitOnChar_length_lt hcu_s hq
      have hl2 := pyStrip_length_le q
      have hl3 := unquote_length_le s
      rw [typedValueF_fuel_eq s.length (pyStrip q) (by omega)] at htq
      exact hqbad t htq
    | bool b => exact trivial
    | list l => exact trivial
    | dict d => exact trivial
  have hres := buildDict_err hvals hbaditem []
  rcases hres with hres | hres
  · left
    rw [typedValue_unfold, typedBody_semi_ok hcu_c hse hitems]
    show (match buildDict (typedValueF s.length) items [] with
      | Except.error e => (Except.error e : Except PyErr Val)
      | Except.ok d => Except.ok (Val.dict d)) = Except.error PyErr.valueError
    rw [hres]
  · right
    rw [typedValue_unfold, typedBody_semi_ok hcu_c hse hitems]
    show (match buildDict (typedValueF s.length) items [] with
      | Except.error e => (Except.error e : Except PyErr Val)
      | Except.ok d => Except.ok (Val.dict d)) = Except.error PyErr.attributeError
    rw [hres]

/-- Witness for `c3_malformed_mapping` at "a=1;b". -/
theorem c3_witness :
    containsChar ';' ("a=1;b".toList) = true ∧
    (typedValue ("a=1;b".toList) = .error .valueError ∨
     typedValue ("a=1;b".toList) = .error .attributeError) :=
  ⟨rfl, c3_malformed_mapping ("a=1;b".toList) (by decide) (by decide) (by decide)
    ⟨"b".toList, by decide, fun t ht => by
      have h0 : typedValue (pyStrip ("b".toList)) = Except.ok (Val.text ("b".toList)) := rfl
      rw [h0] at ht
      have h1 := Val.text.inj (Except.ok.inj ht)
      rw [← h1]
      decide⟩⟩

/-- C10: the boolean-token set is ansible's `BOOLEANS` (string members
`y`/`yes`/`on`/`1`/`true`/`t` and `n`/`no`/`off`/`0`/`false`/`f`), so the bare
digits "1" and "0" are recognized: `typed_value("1")` is `Bool true` (not
`Text "1"`), any string whose lower-casing is a token becomes a boolean, and
every other all-digit string stays `Text`. -/
theorem c10_boolean_tokens :
    ("1".toList ∈ BOOLEANS ∧ "0".toList ∈ BOOLEANS ∧ BOOLEANS.length = 12) ∧
    typedValue ("1".toList) = .ok (.bool true) ∧
    typedValue ("0".toList) = .ok (.bool false) ∧
    (∀ s : PyStr, pyLower s ∈ BOOLEANS → ∃ b, typedValue s = .ok (.bool b)) ∧
    (∀ s : PyStr, s ≠ [] → s.all Char.isDigit = true → s ≠ "1".toList →
      s ≠ "0".toList → typedValue s = .ok (.text s)) := by
  refine ⟨⟨by decide, by decide, by decide⟩, rfl, rfl, ?_, ?_⟩
  · intro s hb
    obtain ⟨hc1, hc2, hu⟩ := booleans_member_shape hb
    have hse : (containsChar ';' (unquote s) && containsChar '=' (unquote s)) = false := by
      rw [hu, hc2]
      rfl
    have hc1' : containsChar ',' (unquote s) = false := by
      rw [hu]
      exact hc1
    rcases typedValue_plain hc1' hse with ⟨hnb, _⟩ | ⟨b, _, ht⟩
    · exfalso
      rw [hu] at hnb
      exact hnb hb
    · exact ⟨b, ht⟩
  · intro s hne hdig h1 h0
    have hdigmem : ∀ c ∈ s, c.isDigit = true := List.all_eq_true.mp hdig
    have hlow : pyLower s = s := by
      unfold pyLower
      rw [List.map_congr_left (fun c hc => pyCharLower_digit (hdigmem c hc))]
      simp
    have hc_comma : containsChar ',' s = false := by
      cases hx : containsChar ',' s
      · rfl
      · have hd := hdigmem ',' (containsChar_iff_mem.mp hx)
        exact absurd hd (by decide)
    have hc_semi : containsChar ';' s = false := by
      cases hx : containsChar ';' s
      · rfl
      · have hd := hdigmem ';' (containsChar_iff_mem.mp hx)
        exact absurd hd (by decide)
    have hquote : isQuotedB s = false := by
      cases s with
      | nil => rfl
      | cons a as =>
        cases hx : isQuotedB (a :: as)
        · rfl
        · exfalso
          unfold isQuotedB at hx
          rw [decide_eq_true_eq] at hx
          have hda := hdigmem a (List.mem_cons_self a as)
          rcases hx with ⟨hh, _⟩ | ⟨hh, _⟩
          · have ha : a = '\'' := by simpa using hh
            rw [ha] at hda
            exact absurd hda (by decide)
          · have ha : a = '"' := by simpa using hh
            rw [ha] at hda
            exact absurd hda (by decide)
    have hu : unquote s = s := by
      unfold unquote
      rw [hquote]
      rfl
    have hse : (containsChar ';' (unquote s) && containsChar '=' (unquote s)) = false := by
      rw [hu, hc_semi]
      rfl
    have hc1' : containsChar ',' (unquote s) = false := by
      rw [hu]
      exact hc_comma
    rcases typedValue_plain hc1' hse with ⟨_, ht⟩ | ⟨b, hb, _⟩
    · rw [hu] at ht
      exact ht
    · exfalso
      rw [hu, hlow] at hb
      simp only [BOOLEANS, BOOLEANS_TRUE, BOOLEANS_FALSE, List.mem_append, List.mem_cons,
        List.not_mem_nil, or_false] at hb
      rcases hb with (rfl | rfl | rfl | rfl | rfl | rfl) | (rfl | rfl | rfl | rfl | rfl | rfl) <;>
        first
          | exact absurd hdig (by decide)
          | exact h1 rfl
          | exact h0 rfl

/-- Witness for `c10_boolean_tokens`: "2" stays text, "ON" becomes a boolean. -/
theorem c10_witness :
    typedValue ("2".toList) = .ok (.text ("2".toList)) ∧
    (∃ b, typedValue ("ON".toList) = .ok (.bool b)) :=
  ⟨c10_boolean_tokens.2.2.2.2 ("2".toList) (by decide) (by decide) (by decide) (by decide),
   c10_boolean_tokens.2.2.2.1 ("ON".toList) (by decide)⟩
